import Mathlib

/-!
Verification development for the PIL condensation stage of the powdr
compiler.  The definitions below are shallow embeddings of the Rust
source files:

* `src/ast/src/parsed/asm.rs` — the symbol-path algebra
  (`SymbolPath`, `AbsoluteSymbolPath`, `Part`);
* `src/ast/src/parsed/types.rs` — the structural type representation
  (`Type<E>`, `TypeScheme<E>`, `TypeBounds`, substitution, variable
  simplification);
* `src/ast/src/parsed/mod.rs` — parsed expressions and
  `ArrayExpression` with its repetition solver;
* `src/pil-analyzer/src/condenser.rs` — the condensation protocol.

Rust strings are modelled as Lean `String` (with `List Char` for
character-level operations), `Vec` as `List`, `HashMap` as association
lists (insertion later in the list wins, matching `HashMap` collection
from an iterator), `u64`/`usize` as `Nat`, and panics/asserts as
`Option`/`Except` failures.  Types that the condenser uses but whose
defining file is not part of the analysed sources (`powdr_ast::analyzed`
and the expression evaluator) are modelled from the specification; each
such definition is marked `Modelled from the spec:` in its doc comment.
-/

namespace Powdr

/-! ### Association lists with `HashMap` semantics

A Rust `HashMap` built by `collect`ing an iterator of pairs keeps, for
every key, the value of the *last* pair with that key.  `hmGet` models
lookup in such a map and `hmSize` the number of stored keys. -/

/-- Lookup in an association list where later bindings shadow earlier
ones (`HashMap::from_iter` semantics). -/
def hmGet {α : Type} : List (String × α) → String → Option α
  | [], _ => none
  | (k, v) :: rest, key =>
    match hmGet rest key with
    | some r => some r
    | none => if k = key then some v else none

/-- Number of distinct keys of the association list, i.e. `HashMap::len`
after collecting. -/
def hmSize {α : Type} (m : List (String × α)) : Nat :=
  (m.map Prod.fst).dedup.length

/-! ### Symbol paths (`src/ast/src/parsed/asm.rs`) -/

/-- A single component of a `SymbolPath`: either the keyword `super` or a
named component. -/
inductive Part where
  | super : Part
  | named (name : String) : Part
deriving DecidableEq

/-- A (possibly relative) symbol path: the parts between each `::`. -/
structure SymbolPath where
  parts : List Part
deriving DecidableEq

/-- An absolute symbol path: the components after the initial `::`;
it cannot contain `super`. -/
structure AbsoluteSymbolPath where
  parts : List String
deriving DecidableEq

namespace SymbolPath

/-- `SymbolPath::from_identifier`. -/
def from_identifier (name : String) : SymbolPath := ⟨[Part.named name]⟩

/-- `SymbolPath::join`: extends the part list with the other path's
parts (no interpretation of `super` or empty components happens here). -/
def join (p other : SymbolPath) : SymbolPath := ⟨p.parts ++ other.parts⟩

end SymbolPath

/-- Display form of a part: `super` prints as `"super"`, a named part
prints as its name (`impl Display for Part`). -/
def partToChars : Part → List Char
  | Part.super => "super".data
  | Part.named n => n.data

/-- `itertools::format(sep)`: the pieces joined with the separator
in between consecutive pieces. -/
def joinSep (sep : List Char) : List (List Char) → List Char
  | [] => []
  | [x] => x
  | x :: y :: xs => x ++ sep ++ joinSep sep (y :: xs)

namespace SymbolPath

/-- `SymbolPath::to_dotted_string` (character list): uses `.` as
separator if there are at most two components, otherwise `::`. -/
def to_dotted_string (p : SymbolPath) : List Char :=
  let separator := if p.parts.length ≤ 2 then ['.'] else [':', ':']
  joinSep separator (p.parts.map partToChars)

/-- `impl Display for SymbolPath` (character list): components joined
with `::`. -/
def displayChars (p : SymbolPath) : List Char :=
  joinSep [':', ':'] (p.parts.map partToChars)

end SymbolPath

/-- `s.matches('.').count()`: number of `'.'` characters. -/
def countDots (s : List Char) : Nat := s.countP (· = '.')

/-- `s.matches("::").count()`: number of non-overlapping occurrences of
`"::"`, scanned left to right. -/
def countColons : List Char → Nat
  | c1 :: c2 :: rest =>
    if c1 = ':' ∧ c2 = ':' then 1 + countColons rest
    else countColons (c2 :: rest)
  | _ => 0

/-- `s.split('.')` on a character list. -/
def splitDot : List Char → List (List Char)
  | [] => [[]]
  | c :: rest =>
    if c = '.' then [] :: splitDot rest
    else
      match splitDot rest with
      | [] => [[c]]
      | s :: ss => (c :: s) :: ss

/-- `s.split("::")` on a character list: splits at non-overlapping
occurrences of `"::"`, scanned left to right. -/
def splitColons : List Char → List (List Char)
  | [] => [[]]
  | [c] => [[c]]
  | c1 :: c2 :: rest =>
    if c1 = ':' ∧ c2 = ':' then [] :: splitColons rest
    else
      match splitColons (c2 :: rest) with
      | [] => [[c1]]
      | s :: ss => (c1 :: s) :: ss

namespace SymbolPath

/-- `impl FromStr for SymbolPath`: parses both the `a.b` and the `a::b`
notation, rejecting strings that mix the two separators; the token
`super` parses to `Part::Super`. -/
def from_str (s : List Char) : Except String SymbolPath :=
  let dots := countDots s
  let double_colons := countColons s
  if dots ≠ 0 ∧ double_colons ≠ 0 then
    Except.error "Path mixes :: and . separators"
  else
    Except.ok ⟨(if double_colons > 0 then splitColons s else splitDot s).map
      (fun t => if t = "super".data then Part.super else Part.named (String.mk t))⟩

end SymbolPath

namespace AbsoluteSymbolPath

/-- `AbsoluteSymbolPath::pop`: removes and returns the last component
(unless empty).  Modelled as returning the shortened path. -/
def pop (p : AbsoluteSymbolPath) : Option (String × AbsoluteSymbolPath) :=
  match p.parts.getLast? with
  | none => none
  | some last => some (last, ⟨p.parts.dropLast⟩)

/-- `AbsoluteSymbolPath::push`. -/
def push (p : AbsoluteSymbolPath) (part : String) : AbsoluteSymbolPath :=
  ⟨p.parts ++ [part]⟩

/-- `AbsoluteSymbolPath::common_prefix` on the component lists: the
longest component-wise equal prefix (`zip` + `map_while`). -/
def commonPrefix : List String → List String → List String
  | a :: as_, b :: bs => if a = b then a :: commonPrefix as_ bs else []
  | _, _ => []

/-- `AbsoluteSymbolPath::common_prefix`. -/
def common_prefix_path (p other : AbsoluteSymbolPath) : AbsoluteSymbolPath :=
  ⟨commonPrefix p.parts other.parts⟩

/-- `AbsoluteSymbolPath::relative_to`: `base.len() - common_prefix_len`
repetitions of `super`, followed by `self`'s components after the common
prefix as named parts. -/
def relative_to (p base : AbsoluteSymbolPath) : SymbolPath :=
  let common_prefix_len := (commonPrefix p.parts base.parts).length
  ⟨List.replicate (base.parts.length - common_prefix_len) Part.super ++
    (p.parts.drop common_prefix_len).map Part.named⟩

/-- One step of `AbsoluteSymbolPath::join`: `Super` pops the last
component (`pop().unwrap()` panics — modelled as `none` — when the path
is already at the root), an empty named part clears the path, and a
non-empty named part is appended. -/
def joinStep (acc : Option AbsoluteSymbolPath) (part : Part) :
    Option AbsoluteSymbolPath :=
  match acc with
  | none => none
  | some q =>
    match part with
    | Part.super =>
      match q.parts with
      | [] => none
      | _ => some ⟨q.parts.dropLast⟩
    | Part.named name =>
      if name = "" then some ⟨[]⟩ else some ⟨q.parts ++ [name]⟩

/-- `AbsoluteSymbolPath::join`: resolves a relative path in the context
of this absolute path by applying its parts in order. -/
def join (p : AbsoluteSymbolPath) (other : SymbolPath) :
    Option AbsoluteSymbolPath :=
  other.parts.foldl joinStep (some p)

end AbsoluteSymbolPath

/-! ### Decimal rendering (Rust `format!("T{}", i + 1)`)

`format!` renders a natural number in decimal.  `decChars` produces the
decimal digit characters, most significant first. -/

/-- The character for a single decimal digit. -/
def digitChar : Nat → Char
  | 0 => '0' | 1 => '1' | 2 => '2' | 3 => '3' | 4 => '4'
  | 5 => '5' | 6 => '6' | 7 => '7' | 8 => '8' | 9 => '9'
  | _ => '*'

/-- Numeric value of a decimal digit character. -/
def digitVal (c : Char) : Nat := c.toNat - 48

/-- Decimal digit characters of a natural number, most significant
first. -/
def decChars (n : Nat) : List Char :=
  if h : n < 10 then [digitChar n]
  else decChars (n / 10) ++ [digitChar (n % 10)]
decreasing_by exact Nat.div_lt_self (by omega) (by omega)

/-- Reads decimal digit characters back into a number (left inverse of
`decChars`, used only in proofs). -/
def fromDec (s : List Char) : Nat := s.foldl (fun a c => a * 10 + digitVal c) 0

/-- The canonical type-variable name `format!("T{}", i + 1)` used by
`TypeScheme::simplify_type_vars`, for 0-based position `i`. -/
def tname (i : Nat) : String := String.mk ('T' :: decChars (i + 1))

/-! ### Type representation (`src/ast/src/parsed/types.rs`)

`Type<E>` is rendered as `Ty E` (`Type` is a universe keyword in Lean).
The wrapper structs `ArrayType`/`TupleType`/`FunctionType` are inlined
into the corresponding constructors. -/

/-- `Type<E>`: the closed variant set of the structural type
representation, parameterized by the representation `E` of array
lengths. -/
inductive Ty (E : Type) where
  | bottom
  | bool
  | int
  | fe
  | string
  | col
  | expr
  | constr
  | array (base : Ty E) (length : Option E)
  | tuple (items : List (Ty E))
  | function (params : List (Ty E)) (value : Ty E)
  | typeVar (name : String)

/-- `TypeBounds`: ordered list of (type-variable name, required trait
names).  The `BTreeSet` of trait names is modelled as a list. -/
structure TypeBounds where
  bounds : List (String × List String)

/-- `TypeBounds::vars`. -/
def TypeBounds.varsList (b : TypeBounds) : List String := b.bounds.map Prod.fst

/-- `TypeBounds::len`. -/
def TypeBounds.len (b : TypeBounds) : Nat := b.bounds.length

/-- `TypeScheme<E>`: a type together with its bound type variables. -/
structure TypeScheme (E : Type) where
  vars : TypeBounds
  ty : Ty E

mutual

/-- `Type::substitute_type_vars`: structural one-pass substitution of
type variables; substituted-in types are not rescanned.  The fallback
arm of the Rust `match` (an `assert!(is_elementary)`) is covered by the
catch-all case, which only the elementary variants reach. -/
def substitute_type_vars {E : Type} (subst : List (String × Ty E)) : Ty E → Ty E
  | Ty.typeVar n =>
    match hmGet subst n with
    | some t => t
    | none => Ty.typeVar n
  | Ty.array base length => Ty.array (substitute_type_vars subst base) length
  | Ty.tuple items => Ty.tuple (substListTypeVars subst items)
  | Ty.function params value =>
    Ty.function (substListTypeVars subst params) (substitute_type_vars subst value)
  | t => t

/-- Elementwise `substitute_type_vars` on a list of types. -/
def substListTypeVars {E : Type} (subst : List (String × Ty E)) :
    List (Ty E) → List (Ty E)
  | [] => []
  | t :: ts => substitute_type_vars subst t :: substListTypeVars subst ts

end

/-- The shared tail of `TypeScheme::simplify_type_vars`: given the
computed `name_substitutions`, checks the `assert!` that the map has as
many entries as there are declared variables (`none` models the panic),
then renames the bound variables and substitutes in the type. -/
def simplifyWith {E : Type} (s : TypeScheme E)
    (name_substitutions : List (String × String)) : Option (TypeScheme E) :=
  if hmSize name_substitutions = s.vars.len then
    some
      { vars := TypeBounds.mk (s.vars.bounds.map
          (fun vb => ((hmGet name_substitutions vb.1).getD vb.1, vb.2)))
        ty := substitute_type_vars
          (name_substitutions.map (fun p => (p.1, Ty.typeVar p.2))) s.ty }
  else none

/-- `TypeScheme::simplify_type_vars`: renames the bound type variables
to `T` (single variable) or `T1`, `T2`, … (by position), returning the
scheme unchanged when there are no bound variables. -/
def simplify_type_vars {E : Type} (s : TypeScheme E) : Option (TypeScheme E) :=
  match s.vars.bounds with
  | [] => some s
  | [vb] => simplifyWith s [(vb.1, "T")]
  | _ => simplifyWith s
      ((List.enumFrom 0 s.vars.varsList).map (fun iv => (iv.2, tname iv.1)))

/-! ### Parsed expressions and array expressions
(`src/ast/src/parsed/mod.rs`)

`BigUint` literals are modelled as `Nat`.  The wrapper structs
(`LambdaExpression`, `ArrayLiteral`, `IndexAccess`, `FunctionCall`,
`IfExpression`) are inlined into the corresponding constructors. -/

/-- `UnaryOperator`. -/
inductive UnaryOperator where
  | minus | logicalNot | next
deriving DecidableEq

/-- `BinaryOperator`. -/
inductive BinaryOperator where
  | add | sub | mul | div | mod | pow
  | binaryAnd | binaryXor | binaryOr
  | shiftLeft | shiftRight
  | logicalOr | logicalAnd
  | less | lessEqual | equal | identityOp | notEqual | greaterEqual | greater
deriving DecidableEq

/-- `NamespacedPolynomialReference`: a polynomial reference given by a
symbol path. -/
structure NamespacedPolynomialReference where
  path : SymbolPath
deriving DecidableEq

mutual

/-- `Expression<Ref>` with the default `Ref =
NamespacedPolynomialReference`. -/
inductive Expression where
  | reference (r : NamespacedPolynomialReference)
  | publicReference (name : String)
  | number (n : Nat) (ty : Option (Ty Nat))
  | stringLiteral (s : String)
  | tuple (items : List Expression)
  | lambdaExpression (params : List String) (body : Expression)
  | arrayLiteral (items : List Expression)
  | binaryOperation (left : Expression) (op : BinaryOperator) (right : Expression)
  | unaryOperation (op : UnaryOperator) (e : Expression)
  | indexAccess (array : Expression) (index : Expression)
  | functionCall (function : Expression) (arguments : List Expression)
  | freeInput (e : Expression)
  | matchExpression (e : Expression) (arms : List MatchArm)
  | ifExpression (condition body elseBody : Expression)

/-- `MatchArm`. -/
inductive MatchArm where
  | mk (pattern : MatchPattern) (value : Expression)

/-- `MatchPattern`. -/
inductive MatchPattern where
  | catchAll
  | pattern (e : Expression)

end

/-- The literal `Expression::Number(0u32.into(), None)` inserted by
`ArrayExpression::pad_with_zeroes`. -/
def zeroExpression : Expression := Expression.number 0 none

/-- `ArrayExpression`: literal blocks, one optional open-ended repeated
block, and concatenation. -/
inductive ArrayExpression where
  | value (v : List Expression)
  | repeated_value (v : List Expression)
  | concat (left right : ArrayExpression)

namespace ArrayExpression

/-- `ArrayExpression::concat` (the method form). -/
def concatWith (a other : ArrayExpression) : ArrayExpression :=
  concat a other

/-- `ArrayExpression::pad_with`: appends a repeated block holding the
given padding expression. -/
def pad_with (a : ArrayExpression) (pad : Expression) : ArrayExpression :=
  concat a (repeated_value [pad])

/-- `ArrayExpression::pad_with_zeroes`. -/
def pad_with_zeroes (a : ArrayExpression) : ArrayExpression :=
  a.pad_with zeroExpression

/-- `ArrayExpression::last`: the last expression of the rightmost
block (`None` when that block is empty). -/
def lastExpr : ArrayExpression → Option Expression
  | value v => v.getLast?
  | repeated_value v => v.getLast?
  | concat _ right => lastExpr right

/-- `ArrayExpression::pad_with_last`: returns `None` if `self` is
empty. -/
def pad_with_last (a : ArrayExpression) : Option ArrayExpression :=
  (a.lastExpr).map (fun last => a.pad_with last)

/-- `ArrayExpression::expressions`: all (top-level) expressions, left
to right. -/
def expressions : ArrayExpression → List Expression
  | value v => v
  | repeated_value v => v
  | concat left right => expressions left ++ expressions right

/-- `ArrayExpression::number_of_repetitions`: the number of times the
`*` operator (a `RepeatedValue` block) is used. -/
def number_of_repetitions : ArrayExpression → Nat
  | repeated_value _ => 1
  | value _ => 0
  | concat left right => number_of_repetitions left + number_of_repetitions right

/-- `ArrayExpression::constant_length`: the combined length of the
constant-size (`Value`) parts. -/
def constant_length : ArrayExpression → Nat
  | repeated_value _ => 0
  | value e => e.length
  | concat left right => constant_length left + constant_length right

/-- `ArrayExpression::solve`: the two `assert!`s are modelled as `none`
results. -/
def solve (a : ArrayExpression) (degree : Nat) : Option Nat :=
  if a.number_of_repetitions ≤ 1 then
    if a.constant_length ≤ degree then some (degree - a.constant_length)
    else none
  else none

end ArrayExpression

/-! ### The condensation protocol (`src/pil-analyzer/src/condenser.rs`)

The condenser is generic over the field type `T` and treats the input
expressions opaquely: it only hands them to the evaluator collaborator.
We keep the input expression type as a parameter `E` and pass the
evaluator as a function `ev : E → Option (Value T)` (it closes over the
read-only symbol table, which the condenser clones up front and never
modifies).  Types from `powdr_ast::analyzed`, which is not among the
analysed sources, are modelled from the specification. -/

/-- `SelectedExpressions<Expr>` (`src/ast/src/parsed/mod.rs`): optional
selector plus ordered expression list. -/
structure SelectedExpressions (Expr : Type) where
  selector : Option Expr
  expressions : List Expr
deriving DecidableEq

/-- `SelectedExpressions::default`. -/
def SelectedExpressions.default (Expr : Type) : SelectedExpressions Expr :=
  ⟨none, []⟩

/-- Modelled from the spec: symbol kinds — `Committed`, `Fixed` or
`Intermediate` columns, or other symbols (`SymbolKind` /
`PolynomialType` of `powdr_ast::analyzed`). -/
inductive SymbolKind where
  | committed | fixed | intermediate | other
deriving DecidableEq

/-- Modelled from the spec: a `Symbol` of `powdr_ast::analyzed` — kind,
optional array length, and the data its resolved column id (`poly_id`)
is derived from.  Name, source and degree play no role in the claims
and are omitted. -/
structure Symbol where
  id : Nat
  kind : SymbolKind
  length : Option Nat
deriving DecidableEq

/-- Modelled from the spec: identity kinds of `powdr_ast::analyzed`. -/
inductive IdentityKind where
  | polynomial | plookup | permutation | connect
deriving DecidableEq

/-- Modelled from the spec: `Identity<Expr>` of `powdr_ast::analyzed` —
id, kind, source and the two `SelectedExpressions` sides.  The source
reference is modelled as an opaque token. -/
structure Identity (Expr : Type) where
  id : Nat
  kind : IdentityKind
  source : Nat
  left : SelectedExpressions Expr
  right : SelectedExpressions Expr
deriving DecidableEq

/-- Modelled from the spec: `AlgebraicExpression<T>`, the flattened
field-typed target representation — resolved column references, field
constants, and algebraic operators, of which only the difference
`left - right` is built by the condenser. -/
inductive AlgebraicExpression (T : Type) where
  | reference (polyId : Nat)
  | number (n : T)
  | sub (left right : AlgebraicExpression T)
deriving DecidableEq

/-- Modelled from the spec: `Identity::from_polynomial_identity` — a
polynomial identity stores its single constraint expression as the
selector of the left side; the right side is default. -/
def from_polynomial_identity {A : Type} (id : Nat) (source : Nat)
    (constraint : A) : Identity A :=
  { id := id
    kind := IdentityKind.polynomial
    source := source
    left := ⟨some constraint, []⟩
    right := SelectedExpressions.default A }

/-- Modelled from the spec: `Identity::expression_for_poly_id` — the
single constraint expression of a `Polynomial`-kind identity (stored as
the left selector); absent on malformed input. -/
def expression_for_poly_id {Expr : Type} (identity : Identity Expr) :
    Option Expr :=
  identity.left.selector

/-- Modelled from the spec: the result values of the evaluator
collaborator — a single algebraic expression, a pair of algebraic
expressions representing an identity `left = right`, or an ordered
sequence of such results. -/
inductive Value (T : Type) where
  | expression (e : AlgebraicExpression T)
  | identityValue (left right : AlgebraicExpression T)
  | array (items : List (Value T))

/-- Modelled from the spec: `StatementIdentifier` — the interleaved
declaration order over definitions, public declarations and
identities. -/
inductive StatementIdentifier where
  | definition (name : String)
  | publicDeclaration (name : String)
  | identity (index : Nat)
deriving DecidableEq

/-- Modelled from the spec: the polynomial reference held by a public
declaration — a name plus the optional resolved column id attached
during condensation. -/
structure PolynomialReference where
  name : String
  poly_id : Option Nat
deriving DecidableEq

/-- Modelled from the spec: a `PublicDeclaration` — only the referenced
polynomial matters to condensation. -/
structure PublicDeclaration where
  polynomial : PolynomialReference
deriving DecidableEq

/-- `TypedExpression` (`src/ast/src/parsed/mod.rs`): an expression with
an optional type scheme.  The expression representation is the opaque
parameter `E`; array lengths inside the scheme are symbolic expressions
of the same representation. -/
structure TypedExpr (E : Type) where
  e : E
  type_scheme : Option (TypeScheme E)

/-- Modelled from the spec: `FunctionValueDefinition` — the
pre-condensation body of a symbol. -/
inductive FunctionValueDefinition (E : Type) where
  | array (a : ArrayExpression)
  | query (e : E)
  | expression (te : TypedExpr E)

/-- The failure modes of the condensation pass; every Rust
`panic!`/`assert!`/`unwrap` in the condenser is one of these. -/
inductive CondenseError where
  | evalError
  | typeMismatch
  | expectedExpression
  | intermediateTypeError
  | arrayLengthMismatch
  | missingConstraint
  | indexOutOfBounds
  | symbolNotFound (name : String)
deriving DecidableEq

/-- Modelled from the spec: the final `Analyzed<T>` artifact. -/
structure Analyzed (T E : Type) where
  degree : Option Nat
  definitions : List (String × Symbol × Option (FunctionValueDefinition E))
  public_declarations : List PublicDeclaration
  intermediate_columns : List (String × Symbol × List (AlgebraicExpression T))
  identities : List (Identity (AlgebraicExpression T))
  source_order : List StatementIdentifier

section Condenser

variable {T E : Type}

/-- `Condenser::condense_to_algebraic_expression`: evaluates the
expression and expects a single algebraic-expression value; evaluation
failure and any other result shape are fatal. -/
def condense_to_algebraic_expression (ev : E → Option (Value T)) (e : E) :
    Except CondenseError (AlgebraicExpression T) :=
  match ev e with
  | none => Except.error CondenseError.evalError
  | some (Value.expression expr) => Except.ok expr
  | some _ => Except.error CondenseError.typeMismatch

/-- The `map`/`collect` over the items of an evaluated array in
`condense_to_array_of_algebraic_expressions`: each item must be an
algebraic-expression value. -/
def expectExpressionItems : List (Value T) →
    Except CondenseError (List (AlgebraicExpression T))
  | [] => Except.ok []
  | item :: rest =>
    match item with
    | Value.expression expr =>
      match expectExpressionItems rest with
      | Except.error err => Except.error err
      | Except.ok tail => Except.ok (expr :: tail)
    | _ => Except.error CondenseError.typeMismatch

/-- `Condenser::condense_to_array_of_algebraic_expressions`: evaluates
the expression and expects an array whose items are all
algebraic-expression values. -/
def condense_to_array_of_algebraic_expressions (ev : E → Option (Value T))
    (e : E) : Except CondenseError (List (AlgebraicExpression T)) :=
  match ev e with
  | none => Except.error CondenseError.evalError
  | some (Value.array items) => expectExpressionItems items
  | some _ => Except.error CondenseError.typeMismatch

/-- The `map`/`collect` over the items of an evaluated array in
`condense_to_constraint_or_array`: each item must be an identity value
and becomes the difference of its two sides. -/
def expectConstraintItems : List (Value T) →
    Except CondenseError (List (AlgebraicExpression T))
  | [] => Except.ok []
  | item :: rest =>
    match item with
    | Value.identityValue left right =>
      match expectConstraintItems rest with
      | Except.error err => Except.error err
      | Except.ok tail => Except.ok (AlgebraicExpression.sub left right :: tail)
    | _ => Except.error CondenseError.typeMismatch

/-- `Condenser::condense_to_constraint_or_array`: evaluates the
expression and expects a single identity value or an array of identity
values; each becomes the algebraic difference `left - right`. -/
def condense_to_constraint_or_array (ev : E → Option (Value T)) (e : E) :
    Except CondenseError (List (AlgebraicExpression T)) :=
  match ev e with
  | none => Except.error CondenseError.evalError
  | some (Value.identityValue left right) =>
    Except.ok [AlgebraicExpression.sub left right]
  | some (Value.array items) => expectConstraintItems items
  | some _ => Except.error CondenseError.typeMismatch

/-- The elementwise condensation of an expression list (the
`iter().map(...).collect()` in `condense_selected_expressions`),
left to right. -/
def condenseExpressionList (ev : E → Option (Value T)) :
    List E → Except CondenseError (List (AlgebraicExpression T))
  | [] => Except.ok []
  | e :: rest =>
    match condense_to_algebraic_expression ev e with
    | Except.error err => Except.error err
    | Except.ok a =>
      match condenseExpressionList ev rest with
      | Except.error err => Except.error err
      | Except.ok tail => Except.ok (a :: tail)

/-- `Condenser::condense_selected_expressions`: condenses the optional
selector and the expression list, elementwise in order. -/
def condense_selected_expressions (ev : E → Option (Value T))
    (sel_expr : SelectedExpressions E) :
    Except CondenseError (SelectedExpressions (AlgebraicExpression T)) :=
  match (match sel_expr.selector with
         | none => Except.ok none
         | some e => (condense_to_algebraic_expression ev e).map some) with
  | Except.error err => Except.error err
  | Except.ok selector =>
    match condenseExpressionList ev sel_expr.expressions with
    | Except.error err => Except.error err
    | Except.ok expressions => Except.ok ⟨selector, expressions⟩

/-- `Condenser::condense_identity`: a `Polynomial`-kind identity is
expanded into one output identity per constraint produced by its single
constraint expression; any other kind yields exactly one output identity
with both sides condensed. -/
def condense_identity (ev : E → Option (Value T)) (identity : Identity E) :
    Except CondenseError (List (Identity (AlgebraicExpression T))) :=
  if identity.kind = IdentityKind.polynomial then
    match expression_for_poly_id identity with
    | none => Except.error CondenseError.missingConstraint
    | some e =>
      (condense_to_constraint_or_array ev e).map
        (fun constraints => constraints.map
          (fun constraint =>
            from_polynomial_identity identity.id identity.source constraint))
  else
    match condense_selected_expressions ev identity.left with
    | Except.error err => Except.error err
    | Except.ok left =>
      match condense_selected_expressions ev identity.right with
      | Except.error err => Except.error err
      | Except.ok right =>
        Except.ok [{ id := identity.id
                     kind := identity.kind
                     source := identity.source
                     left := left
                     right := right }]

/-- The `flat_map` over `source_order` in `condense`, carried out with
the explicit accumulator `acc` of already condensed identities: an
`Identity` entry is replaced by one entry per produced identity, each
holding that identity's position in the condensed list; other entries
pass through. -/
def condenseSourceOrder (ev : E → Option (Value T))
    (identities : List (Identity E)) :
    List StatementIdentifier → List (Identity (AlgebraicExpression T)) →
    Except CondenseError
      (List (Identity (AlgebraicExpression T)) × List StatementIdentifier)
  | [], acc => Except.ok (acc, [])
  | StatementIdentifier.identity index :: rest, acc =>
    match identities[index]? with
    | none => Except.error CondenseError.indexOutOfBounds
    | some identity =>
      match condense_identity ev identity with
      | Except.error err => Except.error err
      | Except.ok news =>
        match condenseSourceOrder ev identities rest (acc ++ news) with
        | Except.error err => Except.error err
        | Except.ok (condensed, stmts) =>
          Except.ok (condensed,
            (List.range news.length).map
              (fun i => StatementIdentifier.identity (acc.length + i)) ++ stmts)
  | s :: rest, acc =>
    match condenseSourceOrder ev identities rest acc with
    | Except.error err => Except.error err
    | Except.ok (condensed, stmts) => Except.ok (condensed, s :: stmts)

/-- The body of the intermediate-column `filter_map` in `condense` for
one `Intermediate` symbol: the definition must be an expression; with a
declared array length the type scheme must be monomorphic `expr[]` and
the body must evaluate to that many algebraic expressions, otherwise the
scheme must be exactly `expr` and the body must evaluate to a single
algebraic expression. -/
def condenseIntermediateValue (ev : E → Option (Value T)) (symbol : Symbol)
    (definition : Option (FunctionValueDefinition E)) :
    Except CondenseError (List (AlgebraicExpression T)) :=
  match definition with
  | some (FunctionValueDefinition.expression te) =>
    match symbol.length with
    | some length =>
      match te.type_scheme with
      | some scheme =>
        match scheme.vars.bounds, scheme.ty with
        | [], Ty.array Ty.expr _ =>
          match condense_to_array_of_algebraic_expressions ev te.e with
          | Except.error err => Except.error err
          | Except.ok result =>
            if result.length = length then Except.ok result
            else Except.error CondenseError.arrayLengthMismatch
        | _, _ => Except.error CondenseError.intermediateTypeError
      | none => Except.error CondenseError.intermediateTypeError
    | none =>
      match te.type_scheme with
      | some ⟨TypeBounds.mk [], Ty.expr⟩ =>
        (condense_to_algebraic_expression ev te.e).map (fun e => [e])
      | _ => Except.error CondenseError.intermediateTypeError
  | _ => Except.error CondenseError.expectedExpression

/-- The intermediate-column extraction loop of `condense`: every symbol
of kind `Intermediate` is condensed into `intermediate_columns`; other
symbols are skipped. -/
def extractIntermediates (ev : E → Option (Value T)) :
    List (String × Symbol × Option (FunctionValueDefinition E)) →
    Except CondenseError (List (String × Symbol × List (AlgebraicExpression T)))
  | [] => Except.ok []
  | (name, symbol, definition) :: rest =>
    if symbol.kind = SymbolKind.intermediate then
      match condenseIntermediateValue ev symbol definition with
      | Except.error err => Except.error err
      | Except.ok value =>
        match extractIntermediates ev rest with
        | Except.error err => Except.error err
        | Except.ok tailCols => Except.ok ((name, symbol, value) :: tailCols)
    else extractIntermediates ev rest

/-- The public-declaration resolution loop of `condense`: looks up the
referenced column in the (already pruned) definition table — a missing
symbol is the fatal `Symbol not found` panic — and attaches the
symbol's resolved column id. -/
def resolvePublics
    (definitions : List (String × Symbol × Option (FunctionValueDefinition E))) :
    List PublicDeclaration → Except CondenseError (List PublicDeclaration)
  | [] => Except.ok []
  | decl :: rest =>
    match definitions.find? (fun d => d.1 = decl.polynomial.name) with
    | none => Except.error (CondenseError.symbolNotFound decl.polynomial.name)
    | some (_, symbol, _) =>
      match resolvePublics definitions rest with
      | Except.error err => Except.error err
      | Except.ok tailDecls =>
        Except.ok ({ polynomial := { name := decl.polynomial.name
                                     poly_id := some symbol.id } } :: tailDecls)

/-- `condense` (`src/pil-analyzer/src/condenser.rs`): condenses the
identities while rewriting `source_order`, extracts the intermediate
columns, prunes them from the definition table, resolves the public
declarations, and assembles the `Analyzed` artifact. -/
def condense (ev : E → Option (Value T)) (degree : Option Nat)
    (definitions : List (String × Symbol × Option (FunctionValueDefinition E)))
    (public_declarations : List PublicDeclaration)
    (identities : List (Identity E))
    (source_order : List StatementIdentifier) :
    Except CondenseError (Analyzed T E) :=
  match condenseSourceOrder ev identities source_order [] with
  | Except.error err => Except.error err
  | Except.ok (condensed_identities, new_order) =>
    match extractIntermediates ev definitions with
    | Except.error err => Except.error err
    | Except.ok intermediate_columns =>
      let prunedDefinitions := definitions.filter
        (fun d => ! intermediate_columns.any (fun c => c.1 = d.1))
      match resolvePublics prunedDefinitions public_declarations with
      | Except.error err => Except.error err
      | Except.ok publics =>
        Except.ok { degree := degree
                    definitions := prunedDefinitions
                    public_declarations := publics
                    intermediate_columns := intermediate_columns
                    identities := condensed_identities
                    source_order := new_order }

end Condenser

/-! ### Concrete instances used by the witnesses below -/

/-- A concrete evaluator for the condenser witnesses: expression
handles are numbers and evaluate to themselves as field constants. -/
def evNum : Nat → Option (Value Nat) :=
  fun e => some (Value.expression (AlgebraicExpression.number e))

/-- A concrete `Connect`-kind identity carrying a selector on its left
side. -/
def connectIdentity : Identity Nat :=
  { id := 3, kind := IdentityKind.connect, source := 0,
    left := ⟨some 1, [2]⟩, right := ⟨none, [4]⟩ }

/-- The evaluator used by the C1 witnesses: expression handle `0`
evaluates to an array of two identity values. -/
def evC1 : Nat → Option (Value Nat) := fun e =>
  if e = 0 then
    some (Value.array
      [Value.identityValue (AlgebraicExpression.number 1)
        (AlgebraicExpression.number 2),
       Value.identityValue (AlgebraicExpression.number 3)
        (AlgebraicExpression.number 4)])
  else none

/-- A concrete `Polynomial`-kind identity with id `7` whose constraint
expression is the handle `0`. -/
def polyIdentityC1 : Identity Nat :=
  { id := 7, kind := IdentityKind.polynomial, source := 9,
    left := ⟨some 0, []⟩, right := ⟨none, []⟩ }

/-- The two identity values that `evC1 0` produces, as pairs. -/
def vsC1 : List (AlgebraicExpression Nat × AlgebraicExpression Nat) :=
  [(AlgebraicExpression.number 1, AlgebraicExpression.number 2),
   (AlgebraicExpression.number 3, AlgebraicExpression.number 4)]

/-- The symbol used by the C3 and C9 witnesses: a scalar intermediate
column. -/
def symIntermediate : Symbol :=
  { id := 2, kind := SymbolKind.intermediate, length := none }

/-- The typed expression defining the witness intermediate column:
handle `5` with declared scheme `expr`. -/
def teIntermediate : TypedExpr Nat :=
  { e := 5, type_scheme := some ⟨TypeBounds.mk [], Ty.expr⟩ }

/-- The definition table used by the C3 and C9 witnesses. -/
def defsIntermediate :
    List (String × Symbol × Option (FunctionValueDefinition Nat)) :=
  [("interm", symIntermediate,
    some (FunctionValueDefinition.expression teIntermediate))]

/-- The evaluator used by the C3 and C9 witnesses: handle `5`
evaluates to a column reference. -/
def evIntermediate : Nat → Option (Value Nat) := fun e =>
  if e = 5 then some (Value.expression (AlgebraicExpression.reference 1))
  else none

/-- The artifact produced by condensing the witness table. -/
def analyzedIntermediate : Analyzed Nat Nat :=
  { degree := none
    definitions := []
    public_declarations := []
    intermediate_columns :=
      [("interm", symIntermediate, [AlgebraicExpression.reference 1])]
    identities := []
    source_order := [] }

/-- A path part that survives printing and reparsing: `super`, or a
named part whose name is not the literal `super` and contains neither
separator character.  (The empty path, a `Named("super")` part, and
names containing `.` or `:` are the shapes on which the round trip
fails.) -/
def goodPart (part : Part) : Prop :=
  match part with
  | Part.super => True
  | Part.named n => n ≠ "super" ∧ ∀ c ∈ n.data, c ≠ '.' ∧ c ≠ ':'

/-- A concrete type scheme with one bound, trait-constrained variable,
used by the C8 witness. -/
def schemeC8 : TypeScheme Nat :=
  ⟨TypeBounds.mk [("a", ["Ord"])], Ty.typeVar "a"⟩

/-- The result of simplifying `schemeC8`: the variable is renamed to
`T`, keeping its bound. -/
def schemeC8simplified : TypeScheme Nat :=
  ⟨TypeBounds.mk [("T", ["Ord"])], Ty.typeVar "T"⟩

/-! ## Theorems -/

/-! ### C4 — the array-expression solver -/

/-- Claim C4: for every `ArrayExpression` `a` and degree `d`, `solve d`
fails when `a` contains more than one `RepeatedValue` block anywhere in
its tree; otherwise it fails when the total element count of the
`Value` blocks exceeds `d`, and otherwise returns `d` minus that
count. -/
theorem solve_characterization (a : ArrayExpression) (d : Nat) :
    a.solve d =
      if 1 < a.number_of_repetitions then none
      else if d < a.constant_length then none
      else some (d - a.constant_length) := by
  simp only [ArrayExpression.solve]
  split_ifs <;> first | rfl | omega

/-! ### C5 — padding an empty array expression -/

/-- Helper: an `ArrayExpression` is never equal to a `Concat` having it
as the left child. -/
theorem concat_ne (a : ArrayExpression) :
    ∀ x, ArrayExpression.concat a x ≠ a := by
  induction a with
  | value v => intro x h; simp at h
  | repeated_value v => intro x h; simp at h
  | concat l r ihl ihr =>
    intro x h
    injection h with h1 h2
    exact ihl r h1

/-- Helper: an array expression whose (top-level) expression list is
empty has no last expression. -/
theorem lastExpr_of_expressions_nil (a : ArrayExpression)
    (h : a.expressions = []) : a.lastExpr = none := by
  induction a with
  | value v => simpa [ArrayExpression.expressions, ArrayExpression.lastExpr] using h
  | repeated_value v =>
    simpa [ArrayExpression.expressions, ArrayExpression.lastExpr] using h
  | concat l r ihl ihr =>
    simp only [ArrayExpression.expressions, List.append_eq_nil] at h
    simpa [ArrayExpression.lastExpr] using ihr h.2

/-- Claim C5 is false on the code: on the empty array expression,
`pad_with_zeroes` is not a no-op (it appends a repeated zero block) and
`pad_with_last` does not return the array — it returns `None`. -/
theorem pad_empty_counterexample :
    ArrayExpression.pad_with_zeroes (ArrayExpression.value []) ≠
      ArrayExpression.value [] ∧
    ArrayExpression.pad_with_last (ArrayExpression.value []) ≠
      some (ArrayExpression.value []) := by
  constructor
  · intro h
    simp [ArrayExpression.pad_with_zeroes, ArrayExpression.pad_with] at h
  · intro h
    simp [ArrayExpression.pad_with_last, ArrayExpression.lastExpr] at h

/-- Claim C5 amended: on an empty `ArrayExpression` (one containing no
expressions), `pad_with_last` returns `None`, while `pad_with_zeroes`
unconditionally appends a repeated block holding the zero constant —
in particular it is not a no-op. -/
theorem pad_empty_behavior (a : ArrayExpression) (h : a.expressions = []) :
    a.pad_with_last = none ∧
    a.pad_with_zeroes =
      ArrayExpression.concat a (ArrayExpression.repeated_value [zeroExpression]) ∧
    a.pad_with_zeroes ≠ a := by
  refine ⟨?_, rfl, ?_⟩
  · simp [ArrayExpression.pad_with_last, lastExpr_of_expressions_nil a h]
  · exact concat_ne a _

/-- Witness for `pad_empty_behavior` at the empty literal array. -/
theorem pad_empty_behavior_witness :
    (ArrayExpression.value []).expressions = [] ∧
    ((ArrayExpression.value []).pad_with_last = none ∧
      (ArrayExpression.value []).pad_with_zeroes =
        ArrayExpression.concat (ArrayExpression.value [])
          (ArrayExpression.repeated_value [zeroExpression]) ∧
      (ArrayExpression.value []).pad_with_zeroes ≠ ArrayExpression.value []) :=
  ⟨rfl, pad_empty_behavior (ArrayExpression.value []) rfl⟩

/-! ### C6 — `join` semantics on absolute and relative bases -/

/-- Helper: once a `Super` has failed, the rest of the fold stays
failed. -/
theorem joinStep_foldl_none (parts : List Part) :
    parts.foldl AbsoluteSymbolPath.joinStep none = none := by
  induction parts with
  | nil => rfl
  | cons p rest ih => simpa [AbsoluteSymbolPath.joinStep] using ih

/-- Claim C6 is false on the code for relative bases: joining
`[Super]` onto the relative base `a` concatenates the part lists
(yielding `a::super`) instead of popping the base to the empty path. -/
theorem symbolPath_join_counterexample :
    SymbolPath.join ⟨[Part.named "a"]⟩ ⟨[Part.super]⟩ =
      ⟨[Part.named "a", Part.super]⟩ ∧
    (⟨[Part.named "a", Part.super]⟩ : SymbolPath) ≠ ⟨[]⟩ := by
  refine ⟨rfl, ?_⟩
  intro h
  simp at h

/-- Claim C6 amended: on an *absolute* base, `join` applies the parts
in order — `Super` pops one component and fails when the base is
already at root, `Named("")` resets the base to root, and a non-empty
`Named` part appends; on a *relative* base, `join` merely concatenates
the part lists without interpreting them. -/
theorem join_semantics :
    (∀ (p : AbsoluteSymbolPath) (rest : List Part),
        AbsoluteSymbolPath.join p ⟨Part.super :: rest⟩ =
          match p.parts with
          | [] => none
          | _ => AbsoluteSymbolPath.join ⟨p.parts.dropLast⟩ ⟨rest⟩) ∧
    (∀ (p : AbsoluteSymbolPath) (rest : List Part),
        AbsoluteSymbolPath.join p ⟨Part.named "" :: rest⟩ =
          AbsoluteSymbolPath.join ⟨[]⟩ ⟨rest⟩) ∧
    (∀ (p : AbsoluteSymbolPath) (name : String) (rest : List Part),
        name ≠ "" →
        AbsoluteSymbolPath.join p ⟨Part.named name :: rest⟩ =
          AbsoluteSymbolPath.join ⟨p.parts ++ [name]⟩ ⟨rest⟩) ∧
    (∀ p : AbsoluteSymbolPath, AbsoluteSymbolPath.join p ⟨[]⟩ = some p) ∧
    (∀ base other : SymbolPath,
        SymbolPath.join base other = ⟨base.parts ++ other.parts⟩) := by
  refine ⟨?_, ?_, ?_, fun p => rfl, fun base other => rfl⟩
  · intro p rest
    cases hp : p.parts with
    | nil =>
      simp only [AbsoluteSymbolPath.join, List.foldl_cons]
      have : AbsoluteSymbolPath.joinStep (some p) Part.super = none := by
        simp [AbsoluteSymbolPath.joinStep, hp]
      rw [this, joinStep_foldl_none]
    | cons q qs =>
      simp only [AbsoluteSymbolPath.join, List.foldl_cons]
      have : AbsoluteSymbolPath.joinStep (some p) Part.super =
          some ⟨p.parts.dropLast⟩ := by
        simp [AbsoluteSymbolPath.joinStep, hp]
      rw [this, hp]
  · intro p rest
    simp [AbsoluteSymbolPath.join, AbsoluteSymbolPath.joinStep]
  · intro p name rest hname
    simp [AbsoluteSymbolPath.join, AbsoluteSymbolPath.joinStep, hname]

/-- Witness for `join_semantics`, exercising the non-empty `Named`
case. -/
theorem join_semantics_witness :
    ("y" : String) ≠ "" ∧
    AbsoluteSymbolPath.join ⟨["x"]⟩ ⟨[Part.named "y"]⟩ =
      AbsoluteSymbolPath.join ⟨["x", "y"]⟩ ⟨[]⟩ :=
  ⟨by decide, join_semantics.2.2.1 ⟨["x"]⟩ "y" [] (by decide)⟩

/-! ### C2 — the `relative_to` / `join` round trip -/

namespace AbsoluteSymbolPath

/-- Helper: the common prefix is at most as long as the left list. -/
theorem commonPrefix_length_le_left :
    ∀ as_ bs : List String, (commonPrefix as_ bs).length ≤ as_.length := by
  intro as_
  induction as_ with
  | nil => intro bs; cases bs <;> simp [commonPrefix]
  | cons a as' ih =>
    intro bs
    cases bs with
    | nil => simp [commonPrefix]
    | cons b bs' =>
      by_cases hab : a = b
      · simpa [commonPrefix, hab] using ih bs'
      · simp [commonPrefix, hab]

/-- Helper: the common prefix is at most as long as the right list. -/
theorem commonPrefix_length_le_right :
    ∀ as_ bs : List String, (commonPrefix as_ bs).length ≤ bs.length := by
  intro as_
  induction as_ with
  | nil => intro bs; cases bs <;> simp [commonPrefix]
  | cons a as' ih =>
    intro bs
    cases bs with
    | nil => simp [commonPrefix]
    | cons b bs' =>
      by_cases hab : a = b
      · simpa [commonPrefix, hab] using ih bs'
      · simp [commonPrefix, hab]

/-- Helper: taking the common-prefix length from the left list yields
the common prefix. -/
theorem take_commonPrefix_left :
    ∀ as_ bs : List String,
      as_.take (commonPrefix as_ bs).length = commonPrefix as_ bs := by
  intro as_
  induction as_ with
  | nil => intro bs; cases bs <;> simp [commonPrefix]
  | cons a as' ih =>
    intro bs
    cases bs with
    | nil => simp [commonPrefix]
    | cons b bs' =>
      by_cases hab : a = b
      · simp [commonPrefix, hab, ih bs']
      · simp [commonPrefix, hab]

/-- Helper: taking the common-prefix length from the right list also
yields the common prefix. -/
theorem take_commonPrefix_right :
    ∀ as_ bs : List String,
      bs.take (commonPrefix as_ bs).length = commonPrefix as_ bs := by
  intro as_
  induction as_ with
  | nil => intro bs; cases bs <;> simp [commonPrefix]
  | cons a as' ih =>
    intro bs
    cases bs with
    | nil => simp [commonPrefix]
    | cons b bs' =>
      by_cases hab : a = b
      · simp [commonPrefix, hab, ih bs']
      · simp [commonPrefix, hab]

/-- Helper: folding `k` `Super` parts over a path of length at least
`k` pops the last `k` components. -/
theorem foldl_supers :
    ∀ (k : Nat) (l : List String), k ≤ l.length →
      (List.replicate k Part.super).foldl joinStep (some ⟨l⟩) =
        some ⟨l.take (l.length - k)⟩ := by
  intro k
  induction k with
  | zero => intro l _; simp
  | succ k ih =>
    intro l hk
    have hne : l ≠ [] := by
      intro h
      subst h
      simp at hk
    have hstep : joinStep (some ⟨l⟩) Part.super = some ⟨l.dropLast⟩ := by
      cases l with
      | nil => exact absurd rfl hne
      | cons x xs => simp [joinStep]
    rw [List.replicate_succ, List.foldl_cons, hstep,
      ih l.dropLast (by simp [List.length_dropLast]; omega)]
    have : l.dropLast.take (l.dropLast.length - k) = l.take (l.length - (k + 1)) := by
      rw [List.dropLast_eq_take, List.take_take, List.length_take]
      congr 1
      omega
    rw [this]

/-- Helper: folding non-empty named parts appends them in order. -/
theorem foldl_named :
    ∀ (names l : List String), (∀ n ∈ names, n ≠ "") →
      (names.map Part.named).foldl joinStep (some ⟨l⟩) = some ⟨l ++ names⟩ := by
  intro names
  induction names with
  | nil => intro l _; simp
  | cons n ns ih =>
    intro l hne
    have hn : n ≠ "" := hne n (List.mem_cons_self n ns)
    have hstep : joinStep (some ⟨l⟩) (Part.named n) = some ⟨l ++ [n]⟩ := by
      simp [joinStep, hn]
    rw [List.map_cons, List.foldl_cons, hstep,
      ih (l ++ [n]) (fun m hm => hne m (List.mem_cons_of_mem n hm))]
    simp

end AbsoluteSymbolPath

/-- Claim C2: for absolute symbol paths `A` and `B` (whose components
are plain, non-empty names), `B.join(A.relative_to(B)) == A`. -/
theorem join_relative_to (A B : AbsoluteSymbolPath)
    (h : ∀ part ∈ A.parts, part ≠ "") :
    AbsoluteSymbolPath.join B (A.relative_to B) = some A := by
  have hL : (AbsoluteSymbolPath.commonPrefix A.parts B.parts).length ≤
      B.parts.length :=
    AbsoluteSymbolPath.commonPrefix_length_le_right A.parts B.parts
  simp only [AbsoluteSymbolPath.relative_to, AbsoluteSymbolPath.join,
    List.foldl_append]
  rw [AbsoluteSymbolPath.foldl_supers _ B.parts (Nat.sub_le _ _)]
  rw [show B.parts.length - (B.parts.length -
      (AbsoluteSymbolPath.commonPrefix A.parts B.parts).length) =
      (AbsoluteSymbolPath.commonPrefix A.parts B.parts).length by omega]
  rw [AbsoluteSymbolPath.foldl_named _ _
    (fun n hn => h n (List.mem_of_mem_drop hn))]
  have hBA : B.parts.take
      (AbsoluteSymbolPath.commonPrefix A.parts B.parts).length =
      A.parts.take (AbsoluteSymbolPath.commonPrefix A.parts B.parts).length := by
    rw [AbsoluteSymbolPath.take_commonPrefix_right,
      AbsoluteSymbolPath.take_commonPrefix_left]
  rw [hBA, List.take_append_drop]

/-! ### C10 — non-`Polynomial` identities condense one-to-one -/

section CondenserTheorems

/-- Computation rule for `Except` bind on a success. -/
@[simp] theorem except_bind_ok {ε α β : Type} (a : α) (f : α → Except ε β) :
    (Except.ok a : Except ε α) >>= f = f a := rfl

/-- Computation rule for `Except` bind on a failure. -/
@[simp] theorem except_bind_error {ε α β : Type} (e : ε) (f : α → Except ε β) :
    (Except.error e : Except ε α) >>= f = (Except.error e : Except ε β) := rfl

/-- Computation rule for `Except.map` on a success. -/
@[simp] theorem except_map_ok {ε α β : Type} (a : α) (f : α → β) :
    (Except.ok a : Except ε α).map f = Except.ok (f a) := rfl

/-- Computation rule for `Except.map` on a failure. -/
@[simp] theorem except_map_error {ε α β : Type} (e : ε) (f : α → β) :
    (Except.error e : Except ε α).map f = (Except.error e : Except ε β) := rfl

variable {T E : Type}

/-- Helper: a successful `condense_selected_expressions` condenses the
optional selector and the expression list elementwise, in order. -/
theorem condense_selected_expressions_ok (ev : E → Option (Value T))
    (se : SelectedExpressions E)
    (out : SelectedExpressions (AlgebraicExpression T))
    (h : condense_selected_expressions ev se = Except.ok out) :
    (se.selector = none → out.selector = none) ∧
    (∀ s, se.selector = some s →
      ∃ a, condense_to_algebraic_expression ev s = Except.ok a ∧
        out.selector = some a) ∧
    condenseExpressionList ev se.expressions = Except.ok out.expressions := by
  cases hsel : se.selector with
  | none =>
    cases hm : condenseExpressionList ev se.expressions with
    | error err => simp [condense_selected_expressions, hsel, hm] at h
    | ok exprs =>
      simp only [condense_selected_expressions, hsel, hm] at h
      injection h with h
      subst h
      exact ⟨fun _ => rfl, fun s hs => Option.noConfusion hs, rfl⟩
  | some s =>
    cases hc : condense_to_algebraic_expression ev s with
    | error err => simp [condense_selected_expressions, hsel, hc] at h
    | ok a =>
      cases hm : condenseExpressionList ev se.expressions with
      | error err => simp [condense_selected_expressions, hsel, hc, hm] at h
      | ok exprs =>
        simp only [condense_selected_expressions, hsel, hc, hm,
          except_map_ok] at h
        injection h with h
        subst h
        refine ⟨fun hn => Option.noConfusion hn, ?_, rfl⟩
        intro s' hs'
        injection hs' with hss
        subst hss
        exact ⟨a, hc, rfl⟩

/-- Claim C10: an identity whose kind is not `Polynomial` condenses to
exactly one output identity that keeps the input's id, kind and source,
with the optional selector and the expression list of each side
condensed elementwise in order (no check that a selector is absent is
performed for any kind, including `Connect`). -/
theorem condense_identity_nonpolynomial (ev : E → Option (Value T))
    (identity : Identity E) (hk : identity.kind ≠ IdentityKind.polynomial)
    (l r : SelectedExpressions (AlgebraicExpression T))
    (hl : condense_selected_expressions ev identity.left = Except.ok l)
    (hr : condense_selected_expressions ev identity.right = Except.ok r) :
    condense_identity ev identity =
      Except.ok [{ id := identity.id, kind := identity.kind,
                   source := identity.source, left := l, right := r }] ∧
    (identity.left.selector = none → l.selector = none) ∧
    (∀ s, identity.left.selector = some s →
      ∃ a, condense_to_algebraic_expression ev s = Except.ok a ∧
        l.selector = some a) ∧
    condenseExpressionList ev identity.left.expressions =
      Except.ok l.expressions ∧
    (identity.right.selector = none → r.selector = none) ∧
    (∀ s, identity.right.selector = some s →
      ∃ a, condense_to_algebraic_expression ev s = Except.ok a ∧
        r.selector = some a) ∧
    condenseExpressionList ev identity.right.expressions =
      Except.ok r.expressions := by
  obtain ⟨hl1, hl2, hl3⟩ := condense_selected_expressions_ok ev _ _ hl
  obtain ⟨hr1, hr2, hr3⟩ := condense_selected_expressions_ok ev _ _ hr
  refine ⟨?_, hl1, hl2, hl3, hr1, hr2, hr3⟩
  simp only [condense_identity, if_neg hk, hl, hr]

/-- Witness for `condense_identity_nonpolynomial`: a `Connect` identity
with a selector present condenses to a single identity preserving id,
kind and source. -/
theorem condense_identity_nonpolynomial_witness :
    connectIdentity.kind ≠ IdentityKind.polynomial ∧
    condense_identity evNum connectIdentity =
      Except.ok [{ id := connectIdentity.id, kind := connectIdentity.kind,
                   source := connectIdentity.source,
                   left := ⟨some (AlgebraicExpression.number 1),
                     [AlgebraicExpression.number 2]⟩,
                   right := ⟨none, [AlgebraicExpression.number 4]⟩ }] :=
  ⟨by decide,
    (condense_identity_nonpolynomial evNum connectIdentity (by decide)
      ⟨some (AlgebraicExpression.number 1), [AlgebraicExpression.number 2]⟩
      ⟨none, [AlgebraicExpression.number 4]⟩ rfl rfl).1⟩

/-! ### C1 — expansion of `Polynomial`-kind identities -/

/-- Helper: condensing an evaluated array of identity values yields the
differences `left - right`, in order. -/
theorem expectConstraintItems_identity_values
    (vs : List (AlgebraicExpression T × AlgebraicExpression T)) :
    expectConstraintItems (vs.map (fun p => Value.identityValue p.1 p.2)) =
      Except.ok (vs.map (fun p => AlgebraicExpression.sub p.1 p.2)) := by
  induction vs with
  | nil => rfl
  | cons v vs ih => simp [expectConstraintItems, ih]

/-- Helper: `condense_to_constraint_or_array` on an expression that
evaluates to an array of identity values. -/
theorem condense_to_constraint_or_array_array (ev : E → Option (Value T))
    (e : E) (vs : List (AlgebraicExpression T × AlgebraicExpression T))
    (hev : ev e =
      some (Value.array (vs.map (fun p => Value.identityValue p.1 p.2)))) :
    condense_to_constraint_or_array ev e =
      Except.ok (vs.map (fun p => AlgebraicExpression.sub p.1 p.2)) := by
  simp only [condense_to_constraint_or_array, hev]
  exact expectConstraintItems_identity_values vs

/-- Claim C1 amended: a `Polynomial`-kind identity whose constraint
expression evaluates to an array of `N` identity values condenses to
exactly `N` output polynomial identities — each the algebraic
difference `left - right` of the corresponding identity value, each
*keeping the source identity's id* (ids are not freshly assigned) — and
the single `StatementIdentifier::Identity` entry is replaced by exactly
`N` entries holding the `N` consecutive positions of those identities
in the condensed identity list, in order. -/
theorem condense_polynomial_identity_expansion (ev : E → Option (Value T))
    (identities : List (Identity E)) (k : Nat) (ident : Identity E) (e : E)
    (vs : List (AlgebraicExpression T × AlgebraicExpression T))
    (rest : List StatementIdentifier)
    (acc : List (Identity (AlgebraicExpression T)))
    (hk : identities[k]? = some ident)
    (hkind : ident.kind = IdentityKind.polynomial)
    (hsel : ident.left.selector = some e)
    (hev : ev e =
      some (Value.array (vs.map (fun p => Value.identityValue p.1 p.2)))) :
    condense_identity ev ident =
      Except.ok (vs.map (fun p => from_polynomial_identity ident.id ident.source
        (AlgebraicExpression.sub p.1 p.2))) ∧
    (∀ x ∈ vs.map (fun p => from_polynomial_identity ident.id ident.source
        (AlgebraicExpression.sub p.1 p.2)),
      x.id = ident.id ∧ x.kind = IdentityKind.polynomial) ∧
    condenseSourceOrder ev identities
        (StatementIdentifier.identity k :: rest) acc =
      (match condenseSourceOrder ev identities rest
          (acc ++ vs.map (fun p => from_polynomial_identity ident.id ident.source
            (AlgebraicExpression.sub p.1 p.2))) with
       | Except.error err => Except.error err
       | Except.ok (condensed, stmts) =>
         Except.ok (condensed,
           (List.range vs.length).map
             (fun i => StatementIdentifier.identity (acc.length + i)) ++ stmts)) := by
  have hci : condense_identity ev ident =
      Except.ok (vs.map (fun p => from_polynomial_identity ident.id ident.source
        (AlgebraicExpression.sub p.1 p.2))) := by
    rw [condense_identity, if_pos hkind]
    simp only [expression_for_poly_id, hsel,
      condense_to_constraint_or_array_array ev e vs hev, except_map_ok,
      List.map_map]
    rfl
  refine ⟨hci, ?_, ?_⟩
  · intro x hx
    obtain ⟨p, _, rfl⟩ := List.mem_map.mp hx
    exact ⟨rfl, rfl⟩
  · simp only [condenseSourceOrder, hk, hci, List.length_map]

end CondenserTheorems

/-- Claim C1 as stated is false on the code: condensing the identity
with id `7` whose body yields two identity values produces two output
identities both carrying id `7` — the ids are not freshly assigned
sequential positions (in particular they are not distinct) — while the
`source_order` entry does expand into the two position entries `0` and
`1`. -/
theorem condense_identity_ids_counterexample :
    (condense evC1 none [] [] [polyIdentityC1]
        [StatementIdentifier.identity 0]).map
        (fun a => (a.identities.map Identity.id, a.source_order)) =
      Except.ok ([7, 7],
        [StatementIdentifier.identity 0, StatementIdentifier.identity 1]) ∧
    ¬ ([7, 7] : List Nat).Nodup :=
  ⟨rfl, by decide⟩

/-- Witness for `condense_polynomial_identity_expansion` on the
concrete identity `polyIdentityC1`. -/
theorem condense_polynomial_identity_expansion_witness :
    ([polyIdentityC1][0]? = some polyIdentityC1) ∧
    polyIdentityC1.kind = IdentityKind.polynomial ∧
    polyIdentityC1.left.selector = some 0 ∧
    evC1 0 = some (Value.array
      (vsC1.map (fun p => Value.identityValue p.1 p.2))) ∧
    condense_identity evC1 polyIdentityC1 =
      Except.ok (vsC1.map (fun p =>
        from_polynomial_identity polyIdentityC1.id polyIdentityC1.source
          (AlgebraicExpression.sub p.1 p.2))) :=
  ⟨rfl, rfl, rfl, rfl,
    (condense_polynomial_identity_expansion evC1 [polyIdentityC1] 0
      polyIdentityC1 0 vsC1 [] [] rfl rfl rfl rfl).1⟩

/-! ### C9 and C3 — intermediate-column extraction and public
declarations -/

section ExtractionTheorems

variable {T E : Type}

/-- Helper: a successful extraction contains, for every `Intermediate`
entry of the definition table, a column with the same name and symbol
whose value passed `condenseIntermediateValue`. -/
theorem extractIntermediates_mem (ev : E → Option (Value T)) :
    ∀ (defs : List (String × Symbol × Option (FunctionValueDefinition E)))
      (cols : List (String × Symbol × List (AlgebraicExpression T))),
      extractIntermediates ev defs = Except.ok cols →
      ∀ name sym d, (name, sym, d) ∈ defs →
        sym.kind = SymbolKind.intermediate →
        ∃ value, (name, sym, value) ∈ cols ∧
          condenseIntermediateValue ev sym d = Except.ok value := by
  intro defs
  induction defs with
  | nil => intro cols h name sym d hmem _; simp at hmem
  | cons entry rest ih =>
    intro cols h name sym d hmem hkind
    obtain ⟨n0, s0, d0⟩ := entry
    by_cases hk0 : s0.kind = SymbolKind.intermediate
    · simp only [extractIntermediates, if_pos hk0] at h
      cases hv : condenseIntermediateValue ev s0 d0 with
      | error err => rw [hv] at h; simp at h
      | ok v0 =>
        rw [hv] at h
        cases ht : extractIntermediates ev rest with
        | error err => rw [ht] at h; simp at h
        | ok tcols =>
          rw [ht] at h
          injection h with h
          subst h
          rcases List.mem_cons.mp hmem with heq | hmemr
          · obtain ⟨h1, h2, h3⟩ : name = n0 ∧ sym = s0 ∧ d = d0 := by
              simpa [Prod.ext_iff] using heq
            subst h1; subst h2; subst h3
            exact ⟨v0, List.mem_cons_self _ _, hv⟩
          · obtain ⟨v, hvmem, hciv⟩ := ih tcols ht name sym d hmemr hkind
            exact ⟨v, List.mem_cons_of_mem _ hvmem, hciv⟩
    · simp only [extractIntermediates, if_neg hk0] at h
      rcases List.mem_cons.mp hmem with heq | hmemr
      · obtain ⟨h1, h2, h3⟩ : name = n0 ∧ sym = s0 ∧ d = d0 := by
          simpa [Prod.ext_iff] using heq
        subst h2
        exact absurd hkind hk0
      · exact ih cols h name sym d hmemr hkind

/-- Helper: after pruning the extracted column names from the
definition table, a lookup of any extracted name fails. -/
theorem find_pruned_none
    (defs : List (String × Symbol × Option (FunctionValueDefinition E)))
    (cols : List (String × Symbol × List (AlgebraicExpression T)))
    (name : String) (hname : ∃ c ∈ cols, c.1 = name) :
    (defs.filter (fun d => ! cols.any (fun c => c.1 = d.1))).find?
      (fun d => d.1 = name) = none := by
  induction defs with
  | nil => rfl
  | cons entry rest ih =>
    simp only [List.filter_cons]
    by_cases hp : (! cols.any (fun c => c.1 = entry.1)) = true
    · rw [if_pos hp]
      have hne : ¬ (entry.1 = name) := by
        intro he
        obtain ⟨c, hc, hcn⟩ := hname
        have hany : cols.any (fun c => c.1 = entry.1) = true :=
          List.any_eq_true.mpr ⟨c, hc, by simp [hcn, he]⟩
        simp [hany] at hp
      simpa [List.find?_cons, hne] using ih
    · rw [if_neg hp]
      exact ih

/-- Helper: when some public declaration's column lookup fails, the
resolution loop aborts with a symbol-not-found error. -/
theorem resolvePublics_fails
    (defs : List (String × Symbol × Option (FunctionValueDefinition E))) :
    ∀ (publics : List PublicDeclaration) (decl : PublicDeclaration),
      decl ∈ publics →
      defs.find? (fun d => d.1 = decl.polynomial.name) = none →
      ∃ n, resolvePublics defs publics =
        Except.error (CondenseError.symbolNotFound n) := by
  intro publics
  induction publics with
  | nil => intro decl h _; simp at h
  | cons p ps ih =>
    intro decl hmem hfind
    cases hf : defs.find? (fun d => d.1 = p.polynomial.name) with
    | none => exact ⟨p.polynomial.name, by simp [resolvePublics, hf]⟩
    | some entry =>
      rcases List.mem_cons.mp hmem with heq | hmemr
      · subst heq
        rw [hfind] at hf
        exact Option.noConfusion hf
      · obtain ⟨n, hn⟩ := ih decl hmemr hfind
        refine ⟨n, ?_⟩
        obtain ⟨_, symbol, _⟩ := entry
        simp [resolvePublics, hf, hn]

/-- Claim C9: a public declaration whose referenced column is an
`Intermediate`-kind symbol makes condensation fail with a
symbol-not-found error, because public declarations are resolved
against the definition table only after every intermediate symbol has
been removed from it.  (The hypotheses state that the earlier stages —
identity condensation and intermediate extraction — succeed, so that
the pass reaches public resolution.) -/
theorem public_declaration_of_intermediate_fails (ev : E → Option (Value T))
    (degree : Option Nat)
    (definitions : List (String × Symbol × Option (FunctionValueDefinition E)))
    (publics : List PublicDeclaration) (identities : List (Identity E))
    (source_order : List StatementIdentifier)
    (name : String) (sym : Symbol) (d : Option (FunctionValueDefinition E))
    (decl : PublicDeclaration)
    (res : List (Identity (AlgebraicExpression T)) × List StatementIdentifier)
    (cols : List (String × Symbol × List (AlgebraicExpression T)))
    (hmem : (name, sym, d) ∈ definitions)
    (hkind : sym.kind = SymbolKind.intermediate)
    (hdecl : decl ∈ publics)
    (hdeclname : decl.polynomial.name = name)
    (hso : condenseSourceOrder ev identities source_order [] = Except.ok res)
    (hex : extractIntermediates ev definitions = Except.ok cols) :
    ∃ n, condense ev degree definitions publics identities source_order =
      Except.error (CondenseError.symbolNotFound n) := by
  obtain ⟨value, hvmem, _⟩ :=
    extractIntermediates_mem ev definitions cols hex name sym d hmem hkind
  have hfind : (definitions.filter
      (fun d => ! cols.any (fun c => c.1 = d.1))).find?
      (fun d => d.1 = decl.polynomial.name) = none := by
    rw [hdeclname]
    exact find_pruned_none definitions cols name ⟨(name, sym, value), hvmem, rfl⟩
  obtain ⟨n, hn⟩ := resolvePublics_fails _ publics decl hdecl hfind
  refine ⟨n, ?_⟩
  obtain ⟨condensed, order⟩ := res
  simp [condense, hso, hex, hn]

/-- Helper: a successful `condense_to_algebraic_expression` means the
evaluator returned exactly one algebraic-expression value. -/
theorem condense_to_algebraic_expression_ok (ev : E → Option (Value T))
    (e : E) (a : AlgebraicExpression T)
    (h : condense_to_algebraic_expression ev e = Except.ok a) :
    ev e = some (Value.expression a) := by
  unfold condense_to_algebraic_expression at h
  cases hev : ev e with
  | none => rw [hev] at h; simp at h
  | some v =>
    rw [hev] at h
    cases v with
    | expression expr => injection h with h; subst h; rfl
    | identityValue l r => simp at h
    | array items => simp at h

/-- Helper: a successful `expectExpressionItems` means every item was
an algebraic-expression value, in order. -/
theorem expectExpressionItems_ok :
    ∀ (items : List (Value T)) (res : List (AlgebraicExpression T)),
      expectExpressionItems items = Except.ok res →
      items = res.map Value.expression := by
  intro items
  induction items with
  | nil =>
    intro res h
    injection h with h
    subst h
    rfl
  | cons item rest ih =>
    intro res h
    cases item with
    | expression expr =>
      cases ht : expectExpressionItems rest with
      | error err => simp [expectExpressionItems, ht] at h
      | ok tail =>
        simp only [expectExpressionItems, ht] at h
        injection h with h
        subst h
        simp [← ih tail ht]
    | identityValue l r => simp [expectExpressionItems] at h
    | array xs => simp [expectExpressionItems] at h

/-- Helper: a successful `condense_to_array_of_algebraic_expressions`
means the evaluator returned an array of algebraic-expression
values. -/
theorem condense_to_array_ok (ev : E → Option (Value T)) (e : E)
    (res : List (AlgebraicExpression T))
    (h : condense_to_array_of_algebraic_expressions ev e = Except.ok res) :
    ev e = some (Value.array (res.map Value.expression)) := by
  unfold condense_to_array_of_algebraic_expressions at h
  cases hev : ev e with
  | none => rw [hev] at h; simp at h
  | some v =>
    rw [hev] at h
    cases v with
    | expression expr => simp at h
    | identityValue l r => simp at h
    | array items => rw [← expectExpressionItems_ok items res h]

/-- Helper: what a successful `condenseIntermediateValue` implies about
the symbol's definition, its declared type scheme, and the evaluation
result. -/
theorem condenseIntermediateValue_ok (ev : E → Option (Value T))
    (sym : Symbol) (d : Option (FunctionValueDefinition E))
    (value : List (AlgebraicExpression T))
    (h : condenseIntermediateValue ev sym d = Except.ok value) :
    ∃ te, d = some (FunctionValueDefinition.expression te) ∧
      (match sym.length with
       | some n =>
         (∃ len, te.type_scheme =
           some ⟨TypeBounds.mk [], Ty.array Ty.expr len⟩) ∧
         ∃ exprs, ev te.e = some (Value.array (exprs.map Value.expression)) ∧
           exprs.length = n ∧ value = exprs
       | none =>
         te.type_scheme = some ⟨TypeBounds.mk [], Ty.expr⟩ ∧
         ∃ a, ev te.e = some (Value.expression a) ∧ value = [a]) := by
  cases d with
  | none => simp [condenseIntermediateValue] at h
  | some fvd =>
    cases fvd with
    | array a => simp [condenseIntermediateValue] at h
    | query e => simp [condenseIntermediateValue] at h
    | expression te =>
      refine ⟨te, rfl, ?_⟩
      cases hlen : sym.length with
      | some n =>
        cases hts : te.type_scheme with
        | none => simp [condenseIntermediateValue, hlen, hts] at h
        | some scheme =>
          obtain ⟨⟨bounds⟩, ty⟩ := scheme
          cases bounds with
          | cons b bs => simp [condenseIntermediateValue, hlen, hts] at h
          | nil =>
            cases ty with
            | array base len =>
              cases base with
              | expr =>
                simp only [condenseIntermediateValue, hlen, hts] at h
                cases hc :
                    condense_to_array_of_algebraic_expressions ev te.e with
                | error err => simp [hc] at h
                | ok result =>
                  simp only [hc] at h
                  by_cases hl : result.length = n
                  · rw [if_pos hl] at h
                    injection h with h
                    subst h
                    exact ⟨⟨len, rfl⟩, result,
                      condense_to_array_ok ev te.e result hc, hl, rfl⟩
                  · rw [if_neg hl] at h
                    simp at h
              | bottom => simp [condenseIntermediateValue, hlen, hts] at h
              | bool => simp [condenseIntermediateValue, hlen, hts] at h
              | int => simp [condenseIntermediateValue, hlen, hts] at h
              | fe => simp [condenseIntermediateValue, hlen, hts] at h
              | string => simp [condenseIntermediateValue, hlen, hts] at h
              | col => simp [condenseIntermediateValue, hlen, hts] at h
              | constr => simp [condenseIntermediateValue, hlen, hts] at h
              | array b l => simp [condenseIntermediateValue, hlen, hts] at h
              | tuple items => simp [condenseIntermediateValue, hlen, hts] at h
              | function ps v =>
                simp [condenseIntermediateValue, hlen, hts] at h
              | typeVar nm => simp [condenseIntermediateValue, hlen, hts] at h
            | bottom => simp [condenseIntermediateValue, hlen, hts] at h
            | bool => simp [condenseIntermediateValue, hlen, hts] at h
            | int => simp [condenseIntermediateValue, hlen, hts] at h
            | fe => simp [condenseIntermediateValue, hlen, hts] at h
            | string => simp [condenseIntermediateValue, hlen, hts] at h
            | col => simp [condenseIntermediateValue, hlen, hts] at h
            | expr => simp [condenseIntermediateValue, hlen, hts] at h
            | constr => simp [condenseIntermediateValue, hlen, hts] at h
            | tuple items => simp [condenseIntermediateValue, hlen, hts] at h
            | function ps v => simp [condenseIntermediateValue, hlen, hts] at h
            | typeVar nm => simp [condenseIntermediateValue, hlen, hts] at h
      | none =>
        cases hts : te.type_scheme with
        | none => simp [condenseIntermediateValue, hlen, hts] at h
        | some scheme =>
          obtain ⟨⟨bounds⟩, ty⟩ := scheme
          cases bounds with
          | cons b bs => simp [condenseIntermediateValue, hlen, hts] at h
          | nil =>
            cases ty with
            | expr =>
              simp only [condenseIntermediateValue, hlen, hts] at h
              cases hc : condense_to_algebraic_expression ev te.e with
              | error err => simp [hc] at h
              | ok a =>
                simp only [hc, except_map_ok] at h
                injection h with h
                subst h
                exact ⟨rfl,
                  a, condense_to_algebraic_expression_ok ev te.e a hc, rfl⟩
            | bottom => simp [condenseIntermediateValue, hlen, hts] at h
            | bool => simp [condenseIntermediateValue, hlen, hts] at h
            | int => simp [condenseIntermediateValue, hlen, hts] at h
            | fe => simp [condenseIntermediateValue, hlen, hts] at h
            | string => simp [condenseIntermediateValue, hlen, hts] at h
            | col => simp [condenseIntermediateValue, hlen, hts] at h
            | constr => simp [condenseIntermediateValue, hlen, hts] at h
            | array b l => simp [condenseIntermediateValue, hlen, hts] at h
            | tuple items => simp [condenseIntermediateValue, hlen, hts] at h
            | function ps v => simp [condenseIntermediateValue, hlen, hts] at h
            | typeVar nm => simp [condenseIntermediateValue, hlen, hts] at h

/-- Claim C3: under a successful condensation, every symbol of kind
`Intermediate` is removed from the definition table and placed into
`intermediate_columns`; its definition must be a typed expression whose
declared scheme has no bound type variables and is exactly `expr[]`
(array case, the body evaluating to exactly the declared number of
algebraic-expression values) or exactly `expr` (scalar case, the body
evaluating to exactly one algebraic-expression value) — any mismatch
makes condensation fail instead. -/
theorem intermediate_extraction (ev : E → Option (Value T))
    (degree : Option Nat)
    (definitions : List (String × Symbol × Option (FunctionValueDefinition E)))
    (publics : List PublicDeclaration) (identities : List (Identity E))
    (source_order : List StatementIdentifier) (analyzed : Analyzed T E)
    (h : condense ev degree definitions publics identities source_order =
      Except.ok analyzed)
    (name : String) (sym : Symbol) (d : Option (FunctionValueDefinition E))
    (hmem : (name, sym, d) ∈ definitions)
    (hkind : sym.kind = SymbolKind.intermediate) :
    (∀ entry ∈ analyzed.definitions, entry.1 ≠ name) ∧
    ∃ value, (name, sym, value) ∈ analyzed.intermediate_columns ∧
      ∃ te, d = some (FunctionValueDefinition.expression te) ∧
        (match sym.length with
         | some n =>
           (∃ len, te.type_scheme =
             some ⟨TypeBounds.mk [], Ty.array Ty.expr len⟩) ∧
           ∃ exprs, ev te.e = some (Value.array (exprs.map Value.expression)) ∧
             exprs.length = n ∧ value = exprs
         | none =>
           te.type_scheme = some ⟨TypeBounds.mk [], Ty.expr⟩ ∧
           ∃ a, ev te.e = some (Value.expression a) ∧ value = [a]) := by
  cases hso : condenseSourceOrder ev identities source_order [] with
  | error err => simp [condense, hso] at h
  | ok res =>
    obtain ⟨condensed, order⟩ := res
    cases hex : extractIntermediates ev definitions with
    | error err => simp [condense, hso, hex] at h
    | ok cols =>
      cases hpub : resolvePublics
          (definitions.filter (fun d => ! cols.any (fun c => c.1 = d.1)))
          publics with
      | error err => simp [condense, hso, hex, hpub] at h
      | ok pubs =>
        simp only [condense, hso, hex, hpub] at h
        injection h with h
        subst h
        obtain ⟨value, hvmem, hciv⟩ :=
          extractIntermediates_mem ev definitions cols hex name sym d hmem hkind
        refine ⟨?_, value, hvmem,
          condenseIntermediateValue_ok ev sym d value hciv⟩
        intro entry hentry hne
        have hpred := (List.mem_filter.mp hentry).2
        have hany : cols.any (fun c => c.1 = entry.1) = true :=
          List.any_eq_true.mpr ⟨(name, sym, value), hvmem, by simp [hne]⟩
        simp [hany] at hpred

end ExtractionTheorems

/-- Witness for `intermediate_extraction` on the concrete scalar
intermediate column. -/
theorem intermediate_extraction_witness :
    condense evIntermediate none defsIntermediate [] [] [] =
      Except.ok analyzedIntermediate ∧
    ((∀ entry ∈ analyzedIntermediate.definitions, entry.1 ≠ "interm") ∧
      ∃ value,
        ("interm", symIntermediate, value) ∈
          analyzedIntermediate.intermediate_columns ∧
        ∃ te, some (FunctionValueDefinition.expression teIntermediate) =
            some (FunctionValueDefinition.expression te) ∧
          (te.type_scheme = some ⟨TypeBounds.mk [], Ty.expr⟩ ∧
            ∃ a, evIntermediate te.e = some (Value.expression a) ∧
              value = [a])) :=
  ⟨rfl,
    intermediate_extraction evIntermediate none defsIntermediate [] [] []
      analyzedIntermediate rfl "interm" symIntermediate
      (some (FunctionValueDefinition.expression teIntermediate))
      (List.mem_singleton.mpr rfl) rfl⟩

/-- Witness for `public_declaration_of_intermediate_fails`: a public
declaration referencing the intermediate column `interm`. -/
theorem public_declaration_of_intermediate_fails_witness :
    ∃ n, condense evIntermediate none defsIntermediate
        [{ polynomial := { name := "interm", poly_id := none } }] [] [] =
      Except.error (CondenseError.symbolNotFound n) :=
  public_declaration_of_intermediate_fails evIntermediate none
    defsIntermediate [{ polynomial := { name := "interm", poly_id := none } }]
    [] [] "interm" symIntermediate
    (some (FunctionValueDefinition.expression teIntermediate))
    { polynomial := { name := "interm", poly_id := none } }
    ([], [])
    [("interm", symIntermediate, [AlgebraicExpression.reference 1])]
    (List.mem_singleton.mpr rfl) rfl (List.mem_singleton.mpr rfl) rfl rfl rfl

/-- Witness for `join_relative_to`: `::x::r::v` relative to `::x::t`,
joined back onto `::x::t`. -/
theorem join_relative_to_witness :
    (∀ part ∈ (⟨["x", "r", "v"]⟩ : AbsoluteSymbolPath).parts, part ≠ "") ∧
    AbsoluteSymbolPath.join ⟨["x", "t"]⟩
        (AbsoluteSymbolPath.relative_to ⟨["x", "r", "v"]⟩ ⟨["x", "t"]⟩) =
      some ⟨["x", "r", "v"]⟩ :=
  ⟨by decide, join_relative_to ⟨["x", "r", "v"]⟩ ⟨["x", "t"]⟩ (by decide)⟩

/-! ### C8 — idempotence of `simplify_type_vars` -/

/-- Helper: reading back a decimal digit character. -/
theorem digitVal_digitChar (d : Nat) (h : d < 10) :
    digitVal (digitChar d) = d := by
  interval_cases d <;> rfl

/-- Helper: `fromDec` over an appended digit. -/
theorem fromDec_append (xs : List Char) (c : Char) :
    fromDec (xs ++ [c]) = fromDec xs * 10 + digitVal c := by
  simp [fromDec, List.foldl_append]

/-- Helper: `fromDec` is a left inverse of `decChars`. -/
theorem fromDec_decChars : ∀ n : Nat, fromDec (decChars n) = n := by
  intro n
  induction n using Nat.strong_induction_on with
  | _ n ih =>
    rw [decChars]
    by_cases h : n < 10
    · rw [dif_pos h]
      simp [fromDec, digitVal_digitChar n h]
    · rw [dif_neg h]
      rw [fromDec_append, ih (n / 10) (Nat.div_lt_self (by omega) (by omega)),
        digitVal_digitChar (n % 10) (Nat.mod_lt n (by omega))]
      omega

/-- Helper: decimal renderings are injective. -/
theorem decChars_injective (a b : Nat) (h : decChars a = decChars b) :
    a = b := by
  have ha := fromDec_decChars a
  rw [h, fromDec_decChars b] at ha
  omega

/-- Helper: canonical type-variable names are injective. -/
theorem tname_injective (i j : Nat) (h : tname i = tname j) : i = j := by
  unfold tname at h
  injection h with h
  injection h with h1 h2
  have := decChars_injective (i + 1) (j + 1) h2
  omega

/-- Helper: lookup misses when the key is absent. -/
theorem hmGet_eq_none {α : Type} (m : List (String × α)) (k : String)
    (h : k ∉ m.map Prod.fst) : hmGet m k = none := by
  induction m with
  | nil => rfl
  | cons p rest ih =>
    obtain ⟨k0, v0⟩ := p
    simp only [List.map_cons, List.mem_cons] at h
    push_neg at h
    simp only [hmGet, ih h.2]
    exact if_neg (fun hh => h.1 hh.symm)

/-- Helper: a successful lookup returns a stored binding. -/
theorem hmGet_mem {α : Type} (m : List (String × α)) (k : String) (v : α)
    (h : hmGet m k = some v) : (k, v) ∈ m := by
  induction m with
  | nil => simp [hmGet] at h
  | cons p rest ih =>
    obtain ⟨k0, v0⟩ := p
    simp only [hmGet] at h
    cases hg : hmGet rest k with
    | some r =>
      rw [hg] at h
      injection h with h
      subst h
      exact List.mem_cons_of_mem _ (ih hg)
    | none =>
      rw [hg] at h
      by_cases he : k0 = k
      · rw [if_pos he] at h
        injection h with h
        subst h
        subst he
        exact List.mem_cons_self _ _
      · rw [if_neg he] at h
        exact absurd h (by simp)

/-- Helper: lookup succeeds for stored keys. -/
theorem hmGet_isSome {α : Type} (m : List (String × α)) (k : String)
    (h : k ∈ m.map Prod.fst) : ∃ v, hmGet m k = some v := by
  induction m with
  | nil => simp at h
  | cons p rest ih =>
    obtain ⟨k0, v0⟩ := p
    simp only [hmGet]
    cases hg : hmGet rest k with
    | some r => exact ⟨r, rfl⟩
    | none =>
      simp only [List.map_cons, List.mem_cons] at h
      rcases h with h | h
      · rw [if_pos h.symm]
        exact ⟨v0, rfl⟩
      · obtain ⟨v, hv⟩ := ih h
        rw [hv] at hg
        exact absurd hg (by simp)

/-- Helper: the keys of the canonical renaming map built from
`enumerate` are the enumerated names. -/
theorem mkNs_keys (names : List String) (i : Nat) :
    ((List.enumFrom i names).map
      (fun iv => (iv.2, tname iv.1))).map Prod.fst = names := by
  rw [List.map_map]
  have hcomp : (Prod.fst ∘ fun iv : Nat × String => (iv.2, tname iv.1)) =
      Prod.snd := rfl
  rw [hcomp, List.enumFrom_map_snd]

/-- Helper: the canonical names with indices at least `i` avoid
`tname j` for `j < i`. -/
theorem tname_not_mem_enumFrom {β : Type} (l : List β) :
    ∀ (i j : Nat), j < i →
      tname j ∉ (List.enumFrom i l).map (fun p => tname p.1) := by
  induction l with
  | nil => intro i j _ h; simp at h
  | cons x xs ih =>
    intro i j hj h
    simp only [List.enumFrom, List.map_cons, List.mem_cons] at h
    rcases h with h | h
    · exact absurd (tname_injective j i h) (by omega)
    · exact ih (i + 1) j (by omega) h

/-- Helper: canonical names assigned along an enumeration are pairwise
distinct. -/
theorem tname_enumFrom_nodup {β : Type} (l : List β) :
    ∀ i : Nat, ((List.enumFrom i l).map (fun p => tname p.1)).Nodup := by
  induction l with
  | nil => intro i; simp
  | cons x xs ih =>
    intro i
    simp only [List.enumFrom, List.map_cons, List.nodup_cons]
    exact ⟨tname_not_mem_enumFrom xs (i + 1) i (by omega), ih (i + 1)⟩

/-- Helper: a list whose deduplication has full length has no
duplicates. -/
theorem nodup_of_dedup_length {α : Type} [DecidableEq α] (l : List α)
    (h : l.dedup.length = l.length) : l.Nodup := by
  have hsub := List.dedup_sublist l
  rw [← hsub.eq_of_length h]
  exact l.nodup_dedup

/-- Helper: applying the canonical renaming map to each declared
variable, in order, yields the canonical names, in order. -/
theorem mkNs_get_keys {β : Type} :
    ∀ (l : List (String × β)) (i : Nat), (l.map Prod.fst).Nodup →
      l.map (fun vb =>
        (hmGet ((List.enumFrom i (l.map Prod.fst)).map
          (fun iv => (iv.2, tname iv.1))) vb.1).getD vb.1) =
      (List.enumFrom i l).map (fun ivb => tname ivb.1) := by
  intro l
  induction l with
  | nil => intro i _; rfl
  | cons vb l' ih =>
    intro i hnd
    simp only [List.map_cons, List.enumFrom] at hnd ⊢
    rw [List.nodup_cons] at hnd
    obtain ⟨hhead, htail⟩ := hnd
    congr 1
    · have hrest : hmGet ((List.enumFrom (i + 1) (l'.map Prod.fst)).map
          (fun iv => (iv.2, tname iv.1))) vb.1 = none :=
        hmGet_eq_none _ _ (by rw [mkNs_keys]; exact hhead)
      simp [hmGet, hrest]
    · have hstep : ∀ vb' ∈ l',
          (hmGet ((vb.1, tname i) ::
            (List.enumFrom (i + 1) (l'.map Prod.fst)).map
              (fun iv => (iv.2, tname iv.1))) vb'.1).getD vb'.1 =
          (hmGet ((List.enumFrom (i + 1) (l'.map Prod.fst)).map
            (fun iv => (iv.2, tname iv.1))) vb'.1).getD vb'.1 := by
        intro vb' hmem
        obtain ⟨w, hw⟩ := hmGet_isSome
          ((List.enumFrom (i + 1) (l'.map Prod.fst)).map
            (fun iv => (iv.2, tname iv.1))) vb'.1
          (by rw [mkNs_keys]; exact List.mem_map_of_mem Prod.fst hmem)
        simp [hmGet, hw]
      rw [List.map_congr_left hstep, ih (i + 1) htail]

/-- Helper: re-enumerating the canonical names produces a diagonal
renaming map — every binding's value equals its key. -/
theorem mkNs_diag {β : Type} :
    ∀ (l : List β) (i : Nat) (p : String × String),
      p ∈ (List.enumFrom i ((List.enumFrom i l).map
          (fun q => tname q.1))).map (fun iv => (iv.2, tname iv.1)) →
      p.2 = p.1 := by
  intro l
  induction l with
  | nil => intro i p h; simp at h
  | cons x xs ih =>
    intro i p h
    simp only [List.enumFrom, List.map_cons, List.mem_cons] at h
    rcases h with h | h
    · subst h; rfl
    · exact ih (i + 1) p h

mutual

/-- Helper: substituting with a map whose every stored binding sends a
key to the type variable of that key leaves any type unchanged. -/
theorem substitute_type_vars_id {E : Type} (m : List (String × Ty E))
    (hm : ∀ k t, hmGet m k = some t → t = Ty.typeVar k) :
    ∀ ty : Ty E, substitute_type_vars m ty = ty
  | Ty.bottom => rfl
  | Ty.bool => rfl
  | Ty.int => rfl
  | Ty.fe => rfl
  | Ty.string => rfl
  | Ty.col => rfl
  | Ty.expr => rfl
  | Ty.constr => rfl
  | Ty.typeVar n => by
    simp only [substitute_type_vars]
    cases hg : hmGet m n with
    | none => rfl
    | some t => exact hm n t hg
  | Ty.array base len => by
    rw [substitute_type_vars, substitute_type_vars_id m hm base]
  | Ty.tuple items => by
    rw [substitute_type_vars, substListTypeVars_id m hm items]
  | Ty.function ps v => by
    rw [substitute_type_vars, substListTypeVars_id m hm ps,
      substitute_type_vars_id m hm v]

/-- Helper: elementwise version of `substitute_type_vars_id`. -/
theorem substListTypeVars_id {E : Type} (m : List (String × Ty E))
    (hm : ∀ k t, hmGet m k = some t → t = Ty.typeVar k) :
    ∀ ts : List (Ty E), substListTypeVars m ts = ts
  | [] => rfl
  | t :: ts => by
    rw [substListTypeVars, substitute_type_vars_id m hm t,
      substListTypeVars_id m hm ts]

end

/-- Helper: `simplifyWith` on a diagonal renaming map whose keys are
exactly the scheme's (pairwise distinct) variables returns the scheme
unchanged. -/
theorem simplifyWith_diag {E : Type} (u : TypeScheme E)
    (ns : List (String × String))
    (hks : ns.map Prod.fst = u.vars.varsList)
    (hnd : u.vars.varsList.Nodup)
    (hdiag : ∀ p ∈ ns, p.2 = p.1) :
    simplifyWith u ns = some u := by
  have hcond : hmSize ns = u.vars.len := by
    rw [hmSize, hks, List.dedup_eq_self.2 hnd]
    simp [TypeBounds.varsList, TypeBounds.len]
  rw [simplifyWith, if_pos hcond]
  have hvars : u.vars.bounds.map
      (fun vb => ((hmGet ns vb.1).getD vb.1, vb.2)) = u.vars.bounds := by
    have hstep : ∀ vb ∈ u.vars.bounds,
        ((hmGet ns vb.1).getD vb.1, vb.2) = vb := by
      intro vb hmem
      have hk : vb.1 ∈ ns.map Prod.fst := by
        rw [hks]
        exact List.mem_map_of_mem Prod.fst hmem
      obtain ⟨v, hv⟩ := hmGet_isSome ns vb.1 hk
      have hd := hdiag (vb.1, v) (hmGet_mem ns vb.1 v hv)
      simp only at hd
      rw [hv]
      simp [hd]
    rw [List.map_congr_left hstep]
    simp
  have hty : substitute_type_vars (ns.map (fun p => (p.1, Ty.typeVar p.2)))
      u.ty = u.ty := by
    apply substitute_type_vars_id
    intro k t hget
    obtain ⟨p, hp, heq⟩ := List.mem_map.mp (hmGet_mem _ k t hget)
    have h1 : p.1 = k := congrArg Prod.fst heq
    have h2 : Ty.typeVar p.2 = t := congrArg Prod.snd heq
    rw [← h2, hdiag p hp, h1]
  rw [hvars, hty]

/-- Helper: the catch-all branch of `simplify_type_vars` for a scheme
with at least two bound variables. -/
theorem simplify_type_vars_eq_of_two {E : Type} (u : TypeScheme E)
    (b1 b2 : String × List String) (bs : List (String × List String))
    (hshape : u.vars.bounds = b1 :: b2 :: bs) :
    simplify_type_vars u =
      simplifyWith u ((List.enumFrom 0 u.vars.varsList).map
        (fun iv => (iv.2, tname iv.1))) := by
  obtain ⟨⟨bounds⟩, ty⟩ := u
  change bounds = b1 :: b2 :: bs at hshape
  subst hshape
  rfl

/-- Claim C8: `TypeScheme::simplify_type_vars` is idempotent — whenever
it succeeds on a scheme (its internal `assert!` passes), applying it to
the result returns that result unchanged. -/
theorem simplify_type_vars_idempotent {E : Type} (s r : TypeScheme E)
    (h : simplify_type_vars s = some r) :
    simplify_type_vars r = some r := by
  obtain ⟨⟨bounds⟩, ty⟩ := s
  cases bounds with
  | nil =>
    simp only [simplify_type_vars] at h
    injection h with h
    subst h
    rfl
  | cons vb1 bs =>
    cases bs with
    | nil =>
      have hval : simplify_type_vars
          (⟨TypeBounds.mk [vb1], ty⟩ : TypeScheme E) =
          some ⟨TypeBounds.mk [("T", vb1.2)],
            substitute_type_vars [(vb1.1, Ty.typeVar "T")] ty⟩ := by
        simp [simplify_type_vars, simplifyWith, hmSize, TypeBounds.len, hmGet]
      rw [hval] at h
      injection h with h
      subst h
      exact simplifyWith_diag _ [("T", "T")] (by simp [TypeBounds.varsList])
        (by simp [TypeBounds.varsList]) (by simp)
    | cons vb2 bs2 =>
      simp only [simplify_type_vars, TypeBounds.varsList] at h
      rw [simplifyWith] at h
      by_cases hcond :
          hmSize ((List.enumFrom 0
            ((vb1 :: vb2 :: bs2).map Prod.fst)).map
              (fun iv => (iv.2, tname iv.1))) =
          (TypeBounds.mk (vb1 :: vb2 :: bs2)).len
      · have hnd : ((vb1 :: vb2 :: bs2).map Prod.fst).Nodup := by
          apply nodup_of_dedup_length
          rw [hmSize, mkNs_keys] at hcond
          simpa [TypeBounds.len] using hcond
        rw [if_pos hcond] at h
        injection h with h
        subst h
        have hkeys : ((vb1 :: vb2 :: bs2).map
            (fun vb => ((hmGet ((List.enumFrom 0
              ((vb1 :: vb2 :: bs2).map Prod.fst)).map
                (fun iv => (iv.2, tname iv.1))) vb.1).getD vb.1,
              vb.2))).map Prod.fst =
            (List.enumFrom 0 (vb1 :: vb2 :: bs2)).map
              (fun ivb => tname ivb.1) := by
          rw [List.map_map]
          exact mkNs_get_keys (vb1 :: vb2 :: bs2) 0 hnd
        rw [simplify_type_vars_eq_of_two _
          ((hmGet ((List.enumFrom 0 ((vb1 :: vb2 :: bs2).map
              Prod.fst)).map (fun iv => (iv.2, tname iv.1)))
            vb1.1).getD vb1.1, vb1.2)
          ((hmGet ((List.enumFrom 0 ((vb1 :: vb2 :: bs2).map
              Prod.fst)).map (fun iv => (iv.2, tname iv.1)))
            vb2.1).getD vb2.1, vb2.2)
          (bs2.map (fun vb => ((hmGet ((List.enumFrom 0
              ((vb1 :: vb2 :: bs2).map Prod.fst)).map
                (fun iv => (iv.2, tname iv.1))) vb.1).getD vb.1, vb.2)))
          rfl]
        refine simplifyWith_diag _ _ (mkNs_keys _ 0) ?_ ?_
        · simp only [TypeBounds.varsList]
          rw [hkeys]
          exact tname_enumFrom_nodup _ 0
        · simp only [TypeBounds.varsList]
          rw [hkeys]
          exact fun p hp => mkNs_diag _ 0 p hp
      · rw [if_neg hcond] at h
        exact absurd h (by simp)

/-- Witness for `simplify_type_vars_idempotent` on a one-variable
scheme. -/
theorem simplify_type_vars_idempotent_witness :
    simplify_type_vars schemeC8 = some schemeC8simplified ∧
    simplify_type_vars schemeC8simplified = some schemeC8simplified := by
  have h : simplify_type_vars schemeC8 = some schemeC8simplified := by
    simp [schemeC8, schemeC8simplified, simplify_type_vars, simplifyWith,
      hmSize, hmGet, TypeBounds.len, substitute_type_vars]
  exact ⟨h, simplify_type_vars_idempotent schemeC8 schemeC8simplified h⟩

/-! ### C7 — printing and reparsing symbol paths -/

/-- Helper: splitting a dot-free string yields the string itself. -/
theorem splitDot_no_dot : ∀ s : List Char, '.' ∉ s → splitDot s = [s] := by
  intro s
  induction s with
  | nil => intro _; rfl
  | cons c rest ih =>
    intro h
    simp only [List.mem_cons] at h
    push_neg at h
    obtain ⟨h1, h2⟩ := h
    simp only [splitDot]
    rw [if_neg (fun hc => h1 hc.symm), ih h2]

/-- Helper: splitting at the first dot after a dot-free prefix. -/
theorem splitDot_append : ∀ (p t : List Char), '.' ∉ p →
    splitDot (p ++ '.' :: t) = p :: splitDot t := by
  intro p
  induction p with
  | nil =>
    intro t _
    simp only [List.nil_append, splitDot]
    rw [if_pos trivial]
  | cons c p' ih =>
    intro t h
    simp only [List.mem_cons] at h
    push_neg at h
    obtain ⟨h1, h2⟩ := h
    simp only [List.cons_append, List.append_eq, splitDot]
    rw [if_neg (fun hc => h1 hc.symm), ih t h2]

/-- Helper: `split('.')` inverts joining dot-free pieces with `.`. -/
theorem splitDot_joinSep : ∀ pieces : List (List Char), pieces ≠ [] →
    (∀ x ∈ pieces, '.' ∉ x) →
    splitDot (joinSep ['.'] pieces) = pieces := by
  intro pieces
  induction pieces with
  | nil => intro h _; exact absurd rfl h
  | cons x xs ih =>
    intro _ hx
    cases xs with
    | nil => exact splitDot_no_dot x (hx x (by simp))
    | cons y ys =>
      rw [joinSep, List.append_assoc, List.singleton_append,
        splitDot_append x _ (hx x (by simp)),
        ih (by simp) (fun z hz => hx z (List.mem_cons_of_mem x hz))]

/-- Helper: splitting a colon-free string on `"::"` yields the string
itself. -/
theorem splitColons_no_colon : ∀ s : List Char, ':' ∉ s →
    splitColons s = [s] := by
  intro s
  induction s with
  | nil => intro _; rfl
  | cons c rest ih =>
    intro h
    simp only [List.mem_cons] at h
    push_neg at h
    obtain ⟨h1, h2⟩ := h
    cases rest with
    | nil => rfl
    | cons c2 rest' =>
      simp only [splitColons]
      rw [if_neg (fun hc => h1 hc.1.symm), ih h2]

/-- Helper: splitting at the first `"::"` after a colon-free prefix. -/
theorem splitColons_append : ∀ (p t : List Char), ':' ∉ p →
    splitColons (p ++ ':' :: ':' :: t) = p :: splitColons t := by
  intro p
  induction p with
  | nil =>
    intro t _
    simp only [List.nil_append, splitColons]
    rw [if_pos ⟨trivial, trivial⟩]
  | cons c p' ih =>
    intro t h
    simp only [List.mem_cons] at h
    push_neg at h
    obtain ⟨h1, h2⟩ := h
    cases p' with
    | nil =>
      simp only [List.cons_append, List.nil_append, splitColons]
      rw [if_neg (fun hc => h1 hc.1.symm), if_pos ⟨trivial, trivial⟩]
    | cons c2 p'' =>
      have hih := ih t h2
      rw [List.cons_append] at hih
      simp only [List.cons_append, List.append_eq, splitColons]
      rw [if_neg (fun hc => h1 hc.1.symm), hih]

/-- Helper: `split("::")` inverts joining colon-free pieces with
`"::"`. -/
theorem splitColons_joinSep : ∀ pieces : List (List Char), pieces ≠ [] →
    (∀ x ∈ pieces, ':' ∉ x) →
    splitColons (joinSep [':', ':'] pieces) = pieces := by
  intro pieces
  induction pieces with
  | nil => intro h _; exact absurd rfl h
  | cons x xs ih =>
    intro _ hx
    cases xs with
    | nil => exact splitColons_no_colon x (hx x (by simp))
    | cons y ys =>
      rw [joinSep, List.append_assoc, List.cons_append, List.singleton_append,
        splitColons_append x _ (hx x (by simp)),
        ih (by simp) (fun z hz => hx z (List.mem_cons_of_mem x hz))]

/-- Helper: a colon-free string has no `"::"` occurrence. -/
theorem countColons_eq_zero : ∀ s : List Char, ':' ∉ s →
    countColons s = 0 := by
  intro s
  induction s with
  | nil => intro _; rfl
  | cons c rest ih =>
    intro h
    simp only [List.mem_cons] at h
    push_neg at h
    obtain ⟨h1, h2⟩ := h
    cases rest with
    | nil => rfl
    | cons c2 rest' =>
      simp only [countColons]
      rw [if_neg (fun hc => h1 hc.1.symm), ih h2]

/-- Helper: counting `"::"` across a colon-free prefix followed by a
separator. -/
theorem countColons_append : ∀ (p t : List Char), ':' ∉ p →
    countColons (p ++ ':' :: ':' :: t) = 1 + countColons t := by
  intro p
  induction p with
  | nil =>
    intro t _
    simp only [List.nil_append, countColons]
    rw [if_pos ⟨trivial, trivial⟩]
  | cons c p' ih =>
    intro t h
    simp only [List.mem_cons] at h
    push_neg at h
    obtain ⟨h1, h2⟩ := h
    cases p' with
    | nil =>
      simp only [List.cons_append, List.nil_append, countColons]
      rw [if_neg (fun hc => h1 hc.1.symm), if_pos ⟨trivial, trivial⟩]
    | cons c2 p'' =>
      have hih := ih t h2
      rw [List.cons_append] at hih
      simp only [List.cons_append, List.append_eq, countColons]
      rw [if_neg (fun hc => h1 hc.1.symm), hih]

/-- Helper: a dot-free string contains no dots to count. -/
theorem countDots_eq_zero (s : List Char) (h : '.' ∉ s) :
    countDots s = 0 := by
  rw [countDots, List.countP_eq_zero]
  intro a ha heq
  simp only [decide_eq_true_eq] at heq
  exact h (heq ▸ ha)

/-- Helper: characters of a joined string come from the separator or
from one of the pieces. -/
theorem mem_joinSep : ∀ (sep : List Char) (pieces : List (List Char))
    (c : Char), c ∈ joinSep sep pieces →
    c ∈ sep ∨ ∃ x ∈ pieces, c ∈ x := by
  intro sep pieces
  induction pieces with
  | nil => intro c h; simp [joinSep] at h
  | cons x xs ih =>
    intro c h
    cases xs with
    | nil => exact Or.inr ⟨x, by simp, h⟩
    | cons y ys =>
      rw [joinSep] at h
      simp only [List.mem_append] at h
      rcases h with (h | h) | h
      · exact Or.inr ⟨x, by simp, h⟩
      · exact Or.inl h
      · rcases ih c h with h | ⟨z, hz, hcz⟩
        · exact Or.inl h
        · exact Or.inr ⟨z, List.mem_cons_of_mem x hz, hcz⟩

/-- Helper: the printed form of a good part contains neither separator
character. -/
theorem goodPart_chars (part : Part) (h : goodPart part) :
    '.' ∉ partToChars part ∧ ':' ∉ partToChars part := by
  cases part with
  | super => exact ⟨by decide, by decide⟩
  | named n =>
    obtain ⟨_, hc⟩ := h
    exact ⟨fun hmem => (hc '.' hmem).1 rfl, fun hmem => (hc ':' hmem).2 rfl⟩

/-- Helper: reparsing the printed form of a good part yields the
part. -/
theorem partToChars_round (part : Part) (h : goodPart part) :
    (if partToChars part = "super".data then Part.super
     else Part.named (String.mk (partToChars part))) = part := by
  cases part with
  | super => decide
  | named n =>
    obtain ⟨hs, _⟩ := h
    have hne : partToChars (Part.named n) ≠ "super".data :=
      fun heq => hs (String.ext heq)
    rw [if_neg hne]
    rfl

/-- Claim C7 is false on the code at the empty path: it has at most two
components, prints (dotted or via `Display`) as the empty string, and
reparses to the one-component path `[Named("")]`, not to itself. -/
theorem from_str_round_trip_counterexample :
    SymbolPath.to_dotted_string ⟨[]⟩ = [] ∧
    SymbolPath.from_str (SymbolPath.to_dotted_string ⟨[]⟩) =
      Except.ok ⟨[Part.named ""]⟩ ∧
    SymbolPath.displayChars ⟨[]⟩ = [] ∧
    SymbolPath.from_str (SymbolPath.displayChars ⟨[]⟩) =
      Except.ok ⟨[Part.named ""]⟩ ∧
    (⟨[Part.named ""]⟩ : SymbolPath) ≠ ⟨[]⟩ := by
  refine ⟨rfl, rfl, rfl, rfl, ?_⟩
  intro h
  simp at h

/-- Claim C7 amended: for every *non-empty* symbol path whose parts are
`Super` or `Named` with a name that is not the literal `super` and
contains neither `.` nor `:` — parsing the `to_dotted_string` output
yields the original path when it has at most two components, and
parsing the `Display` output yields the original path. -/
theorem from_str_round_trip (p : SymbolPath) (hne : p.parts ≠ [])
    (hgood : ∀ part ∈ p.parts, goodPart part) :
    (p.parts.length ≤ 2 →
      SymbolPath.from_str (SymbolPath.to_dotted_string p) = Except.ok p) ∧
    SymbolPath.from_str (SymbolPath.displayChars p) = Except.ok p := by
  obtain ⟨parts⟩ := p
  have hdot : ∀ x ∈ parts.map partToChars, '.' ∉ x := by
    intro x hx
    obtain ⟨part, hp, rfl⟩ := List.mem_map.mp hx
    exact (goodPart_chars part (hgood part hp)).1
  have hcolon : ∀ x ∈ parts.map partToChars, ':' ∉ x := by
    intro x hx
    obtain ⟨part, hp, rfl⟩ := List.mem_map.mp hx
    exact (goodPart_chars part (hgood part hp)).2
  have hpne : parts.map partToChars ≠ [] := by
    intro hzero
    exact hne (by simpa using congrArg List.length hzero)
  have hmapback : (parts.map partToChars).map
      (fun t => if t = "super".data then Part.super
        else Part.named (String.mk t)) = parts := by
    rw [List.map_map]
    have hstep : ∀ part ∈ parts,
        ((fun t => if t = "super".data then Part.super
          else Part.named (String.mk t)) ∘ partToChars) part = part :=
      fun part hp => partToChars_round part (hgood part hp)
    rw [List.map_congr_left hstep]
    simp
  constructor
  · intro hlen
    have hts : SymbolPath.to_dotted_string ⟨parts⟩ =
        joinSep ['.'] (parts.map partToChars) := by
      simp only [SymbolPath.to_dotted_string]
      rw [if_pos hlen]
    rw [hts]
    have hnc : ':' ∉ joinSep ['.'] (parts.map partToChars) := by
      intro hmem
      rcases mem_joinSep _ _ _ hmem with h | ⟨x, hx, hcx⟩
      · simp at h
      · exact hcolon x hx hcx
    have hcc : countColons (joinSep ['.'] (parts.map partToChars)) = 0 :=
      countColons_eq_zero _ hnc
    simp only [SymbolPath.from_str, hcc]
    rw [if_neg (by simp), if_neg (by simp),
      splitDot_joinSep _ hpne hdot, hmapback]
  · cases parts with
    | nil => exact absurd rfl hne
    | cons a as_ =>
      cases as_ with
      | nil =>
        have hnd : '.' ∉ partToChars a :=
          (goodPart_chars a (hgood a (by simp))).1
        have hnc : ':' ∉ partToChars a :=
          (goodPart_chars a (hgood a (by simp))).2
        have hcc : countColons (SymbolPath.displayChars ⟨[a]⟩) = 0 :=
          countColons_eq_zero _ hnc
        simp only [SymbolPath.from_str, hcc]
        rw [if_neg (by simp), if_neg (by simp)]
        rw [show SymbolPath.displayChars ⟨[a]⟩ = partToChars a from rfl]
        rw [splitDot_no_dot _ hnd]
        simp only [List.map_cons, List.map_nil]
        rw [partToChars_round a (hgood a (by simp))]
      | cons b bs =>
        have hjoin : SymbolPath.displayChars ⟨a :: b :: bs⟩ =
            partToChars a ++ ':' :: ':' ::
              joinSep [':', ':'] ((b :: bs).map partToChars) := by
          simp only [SymbolPath.displayChars, List.map_cons, joinSep,
            List.append_assoc, List.cons_append, List.nil_append]
        have hsd : '.' ∉ SymbolPath.displayChars ⟨a :: b :: bs⟩ := by
          intro hmem
          rcases mem_joinSep _ _ _ hmem with h | ⟨x, hx, hcx⟩
          · simp at h
          · exact hdot x hx hcx
        have hdots : countDots (SymbolPath.displayChars ⟨a :: b :: bs⟩) = 0 :=
          countDots_eq_zero _ hsd
        have hcc : countColons (SymbolPath.displayChars ⟨a :: b :: bs⟩) =
            1 + countColons (joinSep [':', ':'] ((b :: bs).map partToChars)) := by
          rw [hjoin]
          exact countColons_append _ _
            (hcolon (partToChars a) (by simp))
        simp only [SymbolPath.from_str, hdots, hcc]
        rw [if_neg (by simp), if_pos (by omega)]
        have hsplit : splitColons (SymbolPath.displayChars ⟨a :: b :: bs⟩) =
            (a :: b :: bs).map partToChars := by
          have := splitColons_joinSep ((a :: b :: bs).map partToChars)
            (by simp) hcolon
          rw [← this]
          rfl
        rw [hsplit, hmapback]

/-- Witness for `from_str_round_trip` on the two-component path
`super::x`. -/
theorem from_str_round_trip_witness :
    ((⟨[Part.super, Part.named "x"]⟩ : SymbolPath).parts ≠ [] ∧
      ∀ part ∈ (⟨[Part.super, Part.named "x"]⟩ : SymbolPath).parts,
        goodPart part) ∧
    SymbolPath.from_str (SymbolPath.to_dotted_string
      ⟨[Part.super, Part.named "x"]⟩) =
      Except.ok ⟨[Part.super, Part.named "x"]⟩ ∧
    SymbolPath.from_str (SymbolPath.displayChars
      ⟨[Part.super, Part.named "x"]⟩) =
      Except.ok ⟨[Part.super, Part.named "x"]⟩ := by
  have hne : (⟨[Part.super, Part.named "x"]⟩ : SymbolPath).parts ≠ [] := by
    simp
  have hgood : ∀ part ∈ (⟨[Part.super, Part.named "x"]⟩ : SymbolPath).parts,
      goodPart part := by
    intro part hp
    rcases List.mem_cons.mp hp with h | h
    · subst h; trivial
    · rcases List.mem_cons.mp h with h | h
      · subst h
        show ("x" : String) ≠ "super" ∧
          ∀ c ∈ ("x" : String).data, c ≠ '.' ∧ c ≠ ':'
        decide
      · simp at h
  obtain ⟨hdotted, hdisplay⟩ := from_str_round_trip
    ⟨[Part.super, Part.named "x"]⟩ hne hgood
  exact ⟨⟨hne, hgood⟩, hdotted (by simp), hdisplay⟩

end Powdr
